import Mathlib

/-!
# Verification of the rust-raytracer core (aggregate / shape / material / integrator)

This file is a shallow embedding of the parts of the `rust-raytracer`
repository that the checked claims are about, together with proofs about
that embedding.

Modelling conventions:

* `f32` values are modelled as rational numbers (`ℚ`).  Rust's `1.0/x`
  for `x = 0` produces an IEEE infinity, which `ℚ` cannot represent
  (`1/0 = 0` in Lean); theorems about code that divides by a ray
  direction component therefore carry a nonzero-direction hypothesis.
  Where a computation's behaviour genuinely depends on `sqrt`
  (the sphere pdf), reals are used for that definition instead.
* Rust `Vec<T>` is modelled as `List T`, with `List.set` / `List.getD`
  for index assignment and lookup.  Out-of-bounds accesses (which would
  panic in Rust) are tracked by an explicit ghost flag in the BVH
  traversal state.
* The trait object `dyn Shape` is modelled as a record of its methods
  that the aggregate code consumes: a bounding box and a `hit` function.
* `Vec::sort_by` is a stable sort; a stable sort's output is uniquely
  determined by the comparison, so it is modelled by `List.insertionSort`
  (Mathlib's insertion sort, which is stable) with the comparator's
  induced order `centroid a ≤ centroid b`.
-/

/-- The three coordinate axes, from `vector.rs` (`enum Axis`). -/
inductive Axis : Type
  | X
  | Y
  | Z
deriving DecidableEq, Repr

/-- `Vec3` from `vector.rs` (renamed: Mathlib already has a Vector3), over `ℚ` (modelling `f32`). -/
structure Vec3 : Type where
  x : ℚ
  y : ℚ
  z : ℚ
deriving DecidableEq, Repr

/-- `Point3` from `point.rs`, over `ℚ` (modelling `f32`). -/
structure Point3 : Type where
  x : ℚ
  y : ℚ
  z : ℚ
deriving DecidableEq, Repr

/-- `Point3::origin`. -/
def Point3.origin : Point3 := ⟨0, 0, 0⟩

/-- `Point3::new`. -/
def Point3.new (x y z : ℚ) : Point3 := ⟨x, y, z⟩

/-- `Point3::min` (componentwise, `if v1 < v2 then v1 else v2`). -/
def Point3.min (v1 v2 : Point3) : Point3 :=
  ⟨if v1.x < v2.x then v1.x else v2.x,
   if v1.y < v2.y then v1.y else v2.y,
   if v1.z < v2.z then v1.z else v2.z⟩

/-- `Point3::max` (componentwise, `if v1 > v2 then v1 else v2`). -/
def Point3.max (v1 v2 : Point3) : Point3 :=
  ⟨if v1.x > v2.x then v1.x else v2.x,
   if v1.y > v2.y then v1.y else v2.y,
   if v1.z > v2.z then v1.z else v2.z⟩

/-- `impl ops::Index<Axis> for Point3`. -/
def Point3.index (p : Point3) : Axis → ℚ
  | Axis.X => p.x
  | Axis.Y => p.y
  | Axis.Z => p.z

/-- `impl ops::Index<Axis> for Vec3`. -/
def Vec3.index (v : Vec3) : Axis → ℚ
  | Axis.X => v.x
  | Axis.Y => v.y
  | Axis.Z => v.z

/-- `impl ops::Add<Vec3> for Point3`. -/
def Point3.addV (p : Point3) (v : Vec3) : Point3 :=
  ⟨p.x + v.x, p.y + v.y, p.z + v.z⟩

/-- `impl ops::Sub for Point3` (`Point - Point = Vector`). -/
def Point3.subP (p q : Point3) : Vec3 :=
  ⟨p.x - q.x, p.y - q.y, p.z - q.z⟩

/-- `impl ops::Mul<f32> for Vec3`. -/
def Vec3.smul (v : Vec3) (s : ℚ) : Vec3 :=
  ⟨v.x * s, v.y * s, v.z * s⟩

/-- `impl ops::Sub for Vec3`. -/
def Vec3.sub (a b : Vec3) : Vec3 :=
  ⟨a.x - b.x, a.y - b.y, a.z - b.z⟩

/-- `Ray` from `ray.rs`. -/
structure Ray : Type where
  origin : Point3
  dir : Vec3
deriving DecidableEq, Repr

/-- `Ray::point_at`: `origin + dir * t`. -/
def Ray.point_at (r : Ray) (t : ℚ) : Point3 :=
  r.origin.addV (r.dir.smul t)

/-- `AABB` from `aggregate.rs`. -/
structure AABB : Type where
  min : Point3
  max : Point3
deriving DecidableEq, Repr

/-- `AABB::new`. -/
def AABB.new (min max : Point3) : AABB := ⟨min, max⟩

/-- `AABB::new_empty`: both corners at the origin (note: this is not a
union identity; unions with it always include the origin). -/
def AABB.new_empty : AABB := ⟨Point3.origin, Point3.origin⟩

/-- `AABB::union`. -/
def AABB.union (box1 box2 : AABB) : AABB :=
  ⟨Point3.min box1.min box2.min, Point3.max box1.max box2.max⟩

/-- `AABB::union_point`. -/
def AABB.union_point (box1 : AABB) (point : Point3) : AABB :=
  ⟨Point3.min box1.min point, Point3.max box1.max point⟩

/-- `AABB::center`. -/
def AABB.center (b : AABB) : Point3 :=
  Point3.new (b.min.x * (1/2) + b.max.x * (1/2))
             (b.min.y * (1/2) + b.max.y * (1/2))
             (b.min.z * (1/2) + b.max.z * (1/2))

/-- `AABB::largest_axis`. -/
def AABB.largest_axis (b : AABB) : Axis :=
  let diagonal := (b.max.subP b.min)
  if diagonal.x > diagonal.y ∧ diagonal.x > diagonal.z then Axis.X
  else if diagonal.y > diagonal.z then Axis.Y
  else Axis.Z

/-- `AABB::surface_area`. -/
def AABB.surface_area (b : AABB) : ℚ :=
  let diagonal := (b.max.subP b.min)
  2 * (diagonal.x * diagonal.y + diagonal.x * diagonal.z + diagonal.y * diagonal.z)

/-- `AABB::intersect_helper`.  Note the second component of the source's
returned pair is `if t1 < t_min { t1 } else { t_max }` — it compares `t1`
against `t_min`, not `t_max`. -/
def AABB.intersect_helper (b : AABB) (r : Ray) (t_min t_max : ℚ) (axis : Axis) : ℚ × ℚ :=
  let inverse_direction := 1 / r.dir.index axis
  let t0 := (b.min.index axis - r.origin.index axis) * inverse_direction
  let t1 := (b.max.index axis - r.origin.index axis) * inverse_direction
  let (t0, t1) := if inverse_direction < 0 then (t1, t0) else (t0, t1)
  (if t0 > t_min then t0 else t_min,
   if t1 < t_min then t1 else t_max)

/-- `AABB::intersect`: three chained slab tests, rejecting as soon as the
accumulated interval collapses (`t_max_temp <= t_min_temp`). -/
def AABB.intersect (b : AABB) (r : Ray) (t_min t_max : ℚ) : Bool :=
  let (t_min_x, t_max_x) := b.intersect_helper r t_min t_max Axis.X
  if t_max_x ≤ t_min_x then false
  else
    let (t_min_y, t_max_y) := b.intersect_helper r t_min_x t_max_x Axis.Y
    if t_max_y ≤ t_min_y then false
    else
      let (t_min_z, t_max_z) := b.intersect_helper r t_min_y t_max_y Axis.Z
      if t_max_z ≤ t_min_z then false
      else true

/-- The `dyn Shape` trait object, restricted to the two methods the
aggregate code consumes: `get_bounding_box` and `hit`. -/
structure Shape : Type where
  get_bounding_box : AABB
  hit : Ray → ℚ → ℚ → Option ℚ

instance : Inhabited Shape := ⟨⟨AABB.new_empty, fun _ _ _ => none⟩⟩

/-- One step of the linear closest-hit scan: the body of the `for` loop in
`impl Aggregate for List`. -/
def hitStep (r : Ray) (t_min : ℚ) (st : Option Shape × ℚ) (shape : Shape) :
    Option Shape × ℚ :=
  match shape.hit r t_min st.2 with
  | some t => (some shape, t)
  | none => st

/-- The scan over a whole shape list starting from an arbitrary running
state `(hit_shape, modified_t_max)`. -/
def hitFold (r : Ray) (t_min : ℚ) (shapes : List Shape) (st : Option Shape × ℚ) :
    Option Shape × ℚ :=
  shapes.foldl (hitStep r t_min) st

/-- `impl Aggregate for List::hit`: the linear closest-hit scan. -/
def listHit (shapes : List Shape) (r : Ray) (t_min t_max : ℚ) : Option (Shape × ℚ) :=
  let st := hitFold r t_min shapes (none, t_max)
  match st.1 with
  | some s => some (s, st.2)
  | none => none

/-- `std::f32::MAX`, the initial value of `min_cost` in the SAH loop. -/
def F32_MAX : ℚ := 2 ^ 128 - 2 ^ 104

/-- The flat-array BVH node type (`enum BVHTypes` with `BVHLeaf` /
`BVHNode` from `aggregate.rs`).  The left child of a `Node` is implicitly
at `index + 1`; the right child at `index + right_offset`. -/
inductive BVHTypes : Type
  | Leaf (bounding_box : AABB) (shapes : List Shape)
  | Node (bounding_box : AABB) (cut_axis : Axis) (right_offset : ℕ)

instance : Inhabited BVHTypes := ⟨BVHTypes.Leaf AABB.new_empty []⟩

/-- The bounding box stored in a BVH array entry (leaf or node). -/
def BVHTypes.box : BVHTypes → AABB
  | BVHTypes.Leaf b _ => b
  | BVHTypes.Node b _ _ => b

/-- The `total_bounds` accumulation at the top of `new_bvh_helper`. -/
def totalBounds (shapes : List Shape) : AABB :=
  shapes.foldl (fun acc s => AABB.union acc s.get_bounding_box) AABB.new_empty

/-- The `centroid_bounds` accumulation in `new_bvh_helper`. -/
def centroidBounds (shapes : List Shape) : AABB :=
  shapes.foldl (fun acc s => AABB.union_point acc s.get_bounding_box.center) AABB.new_empty

/-- `shapes.sort_by(...)` in `new_bvh_helper`: a stable sort by bounding-box
centroid along the cut axis.  Rust's `sort_by` is stable, and a stable
sort's output is uniquely determined by the comparison, so the model uses
insertion sort (stable) with the comparator's induced total preorder. -/
def sortByCentroid (ax : Axis) (shapes : List Shape) : List Shape :=
  @List.insertionSort Shape
    (fun a b => a.get_bounding_box.center.index ax ≤ b.get_bounding_box.center.index ax)
    (fun a b => inferInstanceAs (Decidable (_ ≤ _))) shapes

/-- The `reverse_bounds` precomputation in `new_bvh_helper`: an array of
`shapes.len()` boxes initialised to `new_empty`, written by the loop
`for reverse_idx in (0..(shapes.len() - 1)).rev()`.  Note the loop range
stops at index `len - 2`, so index `len - 1` keeps the `new_empty` value. -/
def reverse_bounds (shapes : List Shape) : List AABB :=
  (List.range (shapes.length - 1)).reverse.foldl
    (fun arr reverse_idx =>
      let arr := arr.set reverse_idx (shapes.getD reverse_idx default).get_bounding_box
      if reverse_idx + 1 < shapes.length then
        arr.set reverse_idx
          (AABB.union (arr.getD reverse_idx AABB.new_empty)
                      (arr.getD (reverse_idx + 1) AABB.new_empty))
      else arr)
    (List.replicate shapes.length AABB.new_empty)

/-- One step of the forward SAH loop in `new_bvh_helper`; the state is
`(forward_bounds, min_cost, min_cost_index)`. -/
def sahStep (shapes : List Shape) (rb : List AABB) (total_bounds : AABB)
    (st : AABB × ℚ × ℕ) (idx : ℕ) : AABB × ℚ × ℕ :=
  let forward_bounds := AABB.union st.1 (shapes.getD idx default).get_bounding_box
  let cost : ℚ :=
    1 + ((forward_bounds.surface_area / total_bounds.surface_area) * ((idx + 1 : ℕ) : ℚ))
      + (((rb.getD (idx + 1) AABB.new_empty).surface_area / total_bounds.surface_area)
          * (((shapes.length - (idx + 1) : ℕ)) : ℚ))
  if cost < st.2.1 then (forward_bounds, cost, idx) else (forward_bounds, st.2.1, st.2.2)

/-- The forward SAH loop of `new_bvh_helper` (`for idx in 0..shapes.len() - 1`),
returning `(min_cost, min_cost_index)`. -/
def sahMinCost (shapes : List Shape) (rb : List AABB) (total_bounds : AABB) : ℚ × ℕ :=
  ((List.range (shapes.length - 1)).foldl (sahStep shapes rb total_bounds)
    (AABB.new_empty, F32_MAX, 0)).2

theorem sahFold_idx_lt (shapes : List Shape) (rb : List AABB) (total_bounds : AABB)
    (bound : ℕ) :
    ∀ (l : List ℕ) (st : AABB × ℚ × ℕ), st.2.2 < bound → (∀ x ∈ l, x < bound) →
      ((l.foldl (sahStep shapes rb total_bounds) st).2.2 < bound) := by
  intro l
  induction l with
  | nil => intro st h _; simpa using h
  | cons a l ih =>
      intro st h hl
      simp only [List.foldl_cons]
      apply ih
      · unfold sahStep
        dsimp only
        split
        · exact hl a (by simp)
        · exact h
      · intro x hx; exact hl x (List.mem_cons_of_mem _ hx)

/-- The reported `min_cost_index` is at most `shapes.len() - 2` whenever
`shapes.len() ≥ 2`. -/
theorem sahMinCost_idx_lt (shapes : List Shape) (rb : List AABB) (total_bounds : AABB)
    (h2 : 2 ≤ shapes.length) :
    (sahMinCost shapes rb total_bounds).2 < shapes.length - 1 := by
  have h : ((List.range (shapes.length - 1)).foldl (sahStep shapes rb total_bounds)
      (AABB.new_empty, F32_MAX, 0)).2.2 < shapes.length - 1 := by
    apply sahFold_idx_lt
    · show (0 : ℕ) < shapes.length - 1
      omega
    · intro x hx; exact List.mem_range.mp hx
  exact h

theorem length_sortByCentroid (ax : Axis) (shapes : List Shape) :
    (sortByCentroid ax shapes).length = shapes.length :=
  (List.perm_insertionSort _ shapes).length_eq

/-- The `cut_axis` local of `new_bvh_helper`. -/
def bvhCutAxis (shapes : List Shape) : Axis :=
  (centroidBounds shapes).largest_axis

/-- The sorted shape vector of `new_bvh_helper` (after `shapes.sort_by`). -/
def bvhSorted (shapes : List Shape) : List Shape :=
  sortByCentroid (bvhCutAxis shapes) shapes

/-- The `(min_cost, min_cost_index)` pair computed by `new_bvh_helper`. -/
def bvhMinCost (shapes : List Shape) : ℚ × ℕ :=
  sahMinCost (bvhSorted shapes) (reverse_bounds (bvhSorted shapes)) (totalBounds shapes)

theorem length_bvhSorted (shapes : List Shape) :
    (bvhSorted shapes).length = shapes.length :=
  length_sortByCentroid _ _

theorem bvhMinCost_idx_lt (shapes : List Shape) (h2 : 2 ≤ shapes.length) :
    (bvhMinCost shapes).2 < shapes.length - 1 := by
  have h := sahMinCost_idx_lt (bvhSorted shapes) (reverse_bounds (bvhSorted shapes))
    (totalBounds shapes) (by rw [length_bvhSorted]; exact h2)
  rwa [length_bvhSorted] at h

/-- `new_bvh_helper` from `aggregate.rs` in fuel-indexed form (the fuel
makes the recursion structural, hence kernel-computable; any fuel at
least `shapes.length` gives the same result, see `new_bvh_helperN_congr`,
and the fuel-0 case coincides with the `shapes.len() <= 2` leaf case
since it is only reachable for an empty shape list).
Pushing the placeholder node, recursing on the left half, patching the
node with the real `right_offset = bvh.len() - node_idx`, then recursing
on the right half, is modelled with explicit list append and `List.set`. -/
def new_bvh_helperN : ℕ → List BVHTypes → List Shape → List BVHTypes
  | 0, bvh, shapes => bvh ++ [BVHTypes.Leaf (totalBounds shapes) shapes]
  | fuel + 1, bvh, shapes =>
    if shapes.length ≤ 2 then
      bvh ++ [BVHTypes.Leaf (totalBounds shapes) shapes]
    else if (centroidBounds shapes).max.index (bvhCutAxis shapes)
          = (centroidBounds shapes).min.index (bvhCutAxis shapes) then
      bvh ++ [BVHTypes.Leaf (totalBounds shapes) shapes]
    else if (bvhMinCost shapes).1 < (shapes.length : ℚ) then
      let bvh1 := bvh ++ [BVHTypes.Node AABB.new_empty (bvhCutAxis shapes) 0]
      let node_idx := bvh1.length - 1
      let bvh2 := new_bvh_helperN fuel bvh1 ((bvhSorted shapes).take ((bvhMinCost shapes).2 + 1))
      let bvh3 := bvh2.set node_idx
        (BVHTypes.Node (totalBounds shapes) (bvhCutAxis shapes) (bvh2.length - node_idx))
      new_bvh_helperN fuel bvh3 ((bvhSorted shapes).drop ((bvhMinCost shapes).2 + 1))
    else
      bvh ++ [BVHTypes.Leaf (totalBounds shapes) (bvhSorted shapes)]

theorem new_bvh_helperN_congr :
    ∀ (fuel fuel' : ℕ) (bvh : List BVHTypes) (shapes : List Shape),
      shapes.length ≤ fuel → shapes.length ≤ fuel' →
      new_bvh_helperN fuel bvh shapes = new_bvh_helperN fuel' bvh shapes := by
  intro fuel
  induction fuel with
  | zero =>
      intro fuel' bvh shapes h h'
      have hz : shapes.length = 0 := Nat.le_zero.mp h
      cases fuel' with
      | zero => rfl
      | succ f =>
          simp only [new_bvh_helperN]
          rw [if_pos (show shapes.length ≤ 2 by omega)]
  | succ fuel ih =>
      intro fuel' bvh shapes h h'
      cases fuel' with
      | zero =>
          have hz : shapes.length = 0 := Nat.le_zero.mp h'
          simp only [new_bvh_helperN]
          rw [if_pos (show shapes.length ≤ 2 by omega)]
      | succ f =>
          simp only [new_bvh_helperN]
          by_cases h2 : shapes.length ≤ 2
          · rw [if_pos h2, if_pos h2]
          · rw [if_neg h2, if_neg h2]
            by_cases hcb : (centroidBounds shapes).max.index (bvhCutAxis shapes)
                = (centroidBounds shapes).min.index (bvhCutAxis shapes)
            · rw [if_pos hcb, if_pos hcb]
            · rw [if_neg hcb, if_neg hcb]
              by_cases hmc : (bvhMinCost shapes).1 < (shapes.length : ℚ)
              · rw [if_pos hmc, if_pos hmc]
                have hidx := bvhMinCost_idx_lt shapes (by omega)
                have hlen := length_bvhSorted shapes
                have htake : ((bvhSorted shapes).take ((bvhMinCost shapes).2 + 1)).length
                    ≤ fuel := by
                  simp only [List.length_take]
                  omega
                have htake' : ((bvhSorted shapes).take ((bvhMinCost shapes).2 + 1)).length
                    ≤ f := by
                  simp only [List.length_take]
                  omega
                have hdrop : ((bvhSorted shapes).drop ((bvhMinCost shapes).2 + 1)).length
                    ≤ fuel := by
                  simp only [List.length_drop]
                  omega
                have hdrop' : ((bvhSorted shapes).drop ((bvhMinCost shapes).2 + 1)).length
                    ≤ f := by
                  simp only [List.length_drop]
                  omega
                rw [ih f _ _ htake htake']
                rw [ih f _ _ hdrop hdrop']
              · rw [if_neg hmc, if_neg hmc]

/-- `new_bvh_helper` from `aggregate.rs` (see `new_bvh_helperN`). -/
def new_bvh_helper (bvh : List BVHTypes) (shapes : List Shape) : List BVHTypes :=
  new_bvh_helperN shapes.length bvh shapes

/-- The natural recursive unfolding of `new_bvh_helper`, exactly mirroring
the source's recursion. -/
theorem new_bvh_helper_eq (bvh : List BVHTypes) (shapes : List Shape) :
    new_bvh_helper bvh shapes =
    if shapes.length ≤ 2 then
      bvh ++ [BVHTypes.Leaf (totalBounds shapes) shapes]
    else if (centroidBounds shapes).max.index (bvhCutAxis shapes)
          = (centroidBounds shapes).min.index (bvhCutAxis shapes) then
      bvh ++ [BVHTypes.Leaf (totalBounds shapes) shapes]
    else if (bvhMinCost shapes).1 < (shapes.length : ℚ) then
      let bvh1 := bvh ++ [BVHTypes.Node AABB.new_empty (bvhCutAxis shapes) 0]
      let node_idx := bvh1.length - 1
      let bvh2 := new_bvh_helper bvh1 ((bvhSorted shapes).take ((bvhMinCost shapes).2 + 1))
      let bvh3 := bvh2.set node_idx
        (BVHTypes.Node (totalBounds shapes) (bvhCutAxis shapes) (bvh2.length - node_idx))
      new_bvh_helper bvh3 ((bvhSorted shapes).drop ((bvhMinCost shapes).2 + 1))
    else
      bvh ++ [BVHTypes.Leaf (totalBounds shapes) (bvhSorted shapes)] := by
  have key := new_bvh_helperN_congr shapes.length (shapes.length + 1) bvh shapes
    le_rfl (Nat.le_succ _)
  show new_bvh_helperN shapes.length bvh shapes = _
  rw [key]
  simp only [new_bvh_helperN]
  by_cases h2 : shapes.length ≤ 2
  · rw [if_pos h2, if_pos h2]
  · rw [if_neg h2, if_neg h2]
    by_cases hcb : (centroidBounds shapes).max.index (bvhCutAxis shapes)
        = (centroidBounds shapes).min.index (bvhCutAxis shapes)
    · rw [if_pos hcb, if_pos hcb]
    · rw [if_neg hcb, if_neg hcb]
      by_cases hmc : (bvhMinCost shapes).1 < (shapes.length : ℚ)
      · rw [if_pos hmc, if_pos hmc]
        have hidx := bvhMinCost_idx_lt shapes (by omega)
        have hlen := length_bvhSorted shapes
        rw [new_bvh_helperN_congr shapes.length
          ((bvhSorted shapes).take ((bvhMinCost shapes).2 + 1)).length _ _
          (by simp only [List.length_take]; omega) le_rfl]
        rw [new_bvh_helperN_congr shapes.length
          ((bvhSorted shapes).drop ((bvhMinCost shapes).2 + 1)).length _ _
          (by simp only [List.length_drop]; omega) le_rfl]
        rfl
      · rw [if_neg hmc, if_neg hmc]

/-- `new_bvh` from `aggregate.rs`. -/
def new_bvh (shapes : List Shape) : List BVHTypes :=
  new_bvh_helper [] shapes

/-- `<BVH as Aggregate>::get_workspace`: a vector of `bvh.len()` zeroed
`usize` slots. -/
def get_workspace (bvh : List BVHTypes) : List ℕ :=
  List.replicate bvh.length 0

/-- The mutable state of the `while` loop in `<BVH as Aggregate>::hit`,
together with ghost fields for the safety claims: `visited` records every
popped node index in order, `count_high` the largest value `to_explore_count`
has reached, and `oob` whether any workspace read/write or BVH index was
out of bounds (in Rust those would panic). -/
structure BVHLoopState : Type where
  to_explore : List ℕ
  to_explore_count : ℕ
  modified_t_max : ℚ
  hit_shape : Option Shape
  visited : List ℕ
  count_high : ℕ
  oob : Bool

/-- Push a node index onto the workspace stack (`to_explore[count] = i;
count += 1`), tracking bounds and the high-water mark. -/
def bvhPush (st : BVHLoopState) (i : ℕ) : BVHLoopState :=
  { st with
    to_explore := st.to_explore.set st.to_explore_count i
    to_explore_count := st.to_explore_count + 1
    count_high := Nat.max st.count_high (st.to_explore_count + 1)
    oob := st.oob || decide (st.to_explore.length ≤ st.to_explore_count) }

/-- The body of the `while to_explore_count > 0` loop of
`<BVH as Aggregate>::hit`, iterated on fuel.  When the stack is empty the
state is returned unchanged; the fuel is an upper bound on loop
iterations, shown sufficient for constructed BVHs elsewhere. -/
def bvhHitLoop (bvh : List BVHTypes) (r : Ray) (t_min : ℚ) :
    ℕ → BVHLoopState → BVHLoopState
  | 0, st => st
  | fuel + 1, st =>
    if st.to_explore_count = 0 then st
    else
      let count1 := st.to_explore_count - 1
      let cur_idx := st.to_explore.getD count1 0
      let st := { st with
        to_explore_count := count1
        visited := st.visited ++ [cur_idx]
        oob := st.oob || decide (st.to_explore.length ≤ count1)
                      || decide (bvh.length ≤ cur_idx) }
      match bvh.getD cur_idx default with
      | BVHTypes.Leaf bounding_box shapes =>
        if ¬ (bounding_box.intersect r t_min st.modified_t_max) then
          bvhHitLoop bvh r t_min fuel st
        else
          match listHit shapes r t_min st.modified_t_max with
          | some (s, t) =>
            bvhHitLoop bvh r t_min fuel
              { st with modified_t_max := t, hit_shape := some s }
          | none => bvhHitLoop bvh r t_min fuel st
      | BVHTypes.Node bounding_box cut_axis right_offset =>
        if ¬ (bounding_box.intersect r t_min st.modified_t_max) then
          bvhHitLoop bvh r t_min fuel st
        else
          if r.dir.index cut_axis < 0 then
            bvhHitLoop bvh r t_min fuel
              (bvhPush (bvhPush st (cur_idx + right_offset)) (cur_idx + 1))
          else
            bvhHitLoop bvh r t_min fuel
              (bvhPush (bvhPush st (cur_idx + 1)) (cur_idx + right_offset))

/-- `<BVH as Aggregate>::hit` including the ghost-instrumented final loop
state.  The loop fuel `bvh.length + 1` is sufficient because every node is
visited at most once (proved for constructed BVHs). -/
def bvhHitFull (bvh : List BVHTypes) (r : Ray) (t_min t_max : ℚ) (workspace : List ℕ) :
    BVHLoopState :=
  bvhHitLoop bvh r t_min (bvh.length + 1)
    { to_explore := workspace.set 0 0
      to_explore_count := 1
      modified_t_max := t_max
      hit_shape := none
      visited := []
      count_high := 1
      oob := decide (workspace.length = 0) }

/-- `<BVH as Aggregate>::hit`: the returned value. -/
def bvhHit (bvh : List BVHTypes) (r : Ray) (t_min t_max : ℚ) (workspace : List ℕ) :
    Option (Shape × ℚ) :=
  if bvh.isEmpty then none
  else
    let st := bvhHitFull bvh r t_min t_max workspace
    match st.hit_shape with
    | some s => some (s, st.modified_t_max)
    | none => none

/-! ## A concrete three-shape scene

Used to exercise the SAH construction and the traversal on a case where
two shapes are hit at exactly the same ray parameter.  The hit functions
have the range-filtered form every geometric primitive in the repository
has (a fixed candidate parameter, reported iff it lies strictly inside
`(t_min, t_max)`), and each candidate hit point lies inside the shape's
bounding box, so the scene is geometrically realisable (for example by
triangles). -/

/-- Shape with bounding box `[0, 9/2]³` hit at `t = 5` (the ray below
reaches `(4,4,4)` at `t = 5`, inside this box). -/
def tieA : Shape :=
  ⟨⟨⟨0,0,0⟩, ⟨9/2,9/2,9/2⟩⟩, fun _ a b => if a < 5 ∧ 5 < b then some 5 else none⟩

/-- Shape with bounding box `[1, 2]³` that the ray misses. -/
def tieB : Shape := ⟨⟨⟨1,1,1⟩, ⟨2,2,2⟩⟩, fun _ _ _ => none⟩

/-- Shape with bounding box `[7/2, 8]³` hit at the same `t = 5`. -/
def tieC : Shape :=
  ⟨⟨⟨7/2,7/2,7/2⟩, ⟨8,8,8⟩⟩, fun _ a b => if a < 5 ∧ 5 < b then some 5 else none⟩

/-- The scene, in the order the shape list aggregate scans it. -/
def tieScene : List Shape := [tieA, tieB, tieC]

/-- The diagonal ray `origin (-1,-1,-1)`, `dir (1,1,1)`. -/
def tieRay : Ray := ⟨⟨-1,-1,-1⟩, ⟨1,1,1⟩⟩

theorem tie_centroidBounds : centroidBounds tieScene = ⟨⟨0,0,0⟩, ⟨23/4,23/4,23/4⟩⟩ := by
  norm_num [centroidBounds, tieScene, tieA, tieB, tieC, AABB.union_point, AABB.center,
    Point3.min, Point3.max, Point3.origin, Point3.new, AABB.new_empty]

theorem tie_cutAxis : bvhCutAxis tieScene = Axis.Z := by
  norm_num [bvhCutAxis, centroidBounds, tieScene, tieA, tieB, tieC, AABB.union_point,
    AABB.center, Point3.min, Point3.max, Point3.origin, Point3.new, AABB.new_empty,
    AABB.largest_axis, Point3.subP]

theorem tie_sorted : bvhSorted tieScene = [tieB, tieA, tieC] := by
  norm_num [bvhSorted, sortByCentroid, bvhCutAxis, centroidBounds, tieScene, tieA, tieB, tieC,
    AABB.union_point, AABB.center, Point3.min, Point3.max, Point3.origin, Point3.new,
    AABB.new_empty, AABB.largest_axis, Point3.subP, List.insertionSort, List.orderedInsert,
    Vec3.index, Point3.index]

theorem tie_totalBounds : totalBounds tieScene = ⟨⟨0,0,0⟩, ⟨8,8,8⟩⟩ := by
  norm_num [totalBounds, tieScene, tieA, tieB, tieC, AABB.union, Point3.min, Point3.max,
    Point3.origin, AABB.new_empty]

/-- The `reverse_bounds` array for the sorted scene: the loop never writes
index `2`, which keeps the `new_empty` (origin) box rather than the
bounding box of the last shape. -/
theorem tie_reverse_bounds : reverse_bounds [tieB, tieA, tieC] =
    [⟨⟨0,0,0⟩, ⟨9/2,9/2,9/2⟩⟩, ⟨⟨0,0,0⟩, ⟨9/2,9/2,9/2⟩⟩, AABB.new_empty] := by
  norm_num [reverse_bounds, tieA, tieB, tieC, AABB.union, Point3.min, Point3.max,
    Point3.origin, AABB.new_empty, List.range_succ, List.replicate_succ, List.set]

theorem tie_minCost : bvhMinCost tieScene = (209/128, 1) := by
  rw [bvhMinCost, tie_sorted, tie_reverse_bounds, tie_totalBounds]
  norm_num [sahMinCost, sahStep, List.range_succ, tieA, tieB, tieC, AABB.union, Point3.min,
    Point3.max, Point3.origin, AABB.new_empty, AABB.surface_area, Point3.subP, F32_MAX]

theorem tie_new_bvh : new_bvh tieScene =
    [BVHTypes.Node ⟨⟨0,0,0⟩,⟨8,8,8⟩⟩ Axis.Z 2,
     BVHTypes.Leaf ⟨⟨0,0,0⟩, ⟨9/2,9/2,9/2⟩⟩ [tieB, tieA],
     BVHTypes.Leaf ⟨⟨0,0,0⟩,⟨8,8,8⟩⟩ [tieC]] := by
  have htB : totalBounds [tieB, tieA] = ⟨⟨0,0,0⟩, ⟨9/2,9/2,9/2⟩⟩ := by
    norm_num [totalBounds, tieA, tieB, AABB.union, Point3.min, Point3.max,
      Point3.origin, AABB.new_empty]
  have htC : totalBounds [tieC] = ⟨⟨0,0,0⟩, ⟨8,8,8⟩⟩ := by
    norm_num [totalBounds, tieC, AABB.union, Point3.min, Point3.max,
      Point3.origin, AABB.new_empty]
  have hleft : new_bvh_helper [BVHTypes.Node AABB.new_empty Axis.Z 0] [tieB, tieA] =
      [BVHTypes.Node AABB.new_empty Axis.Z 0,
       BVHTypes.Leaf ⟨⟨0,0,0⟩, ⟨9/2,9/2,9/2⟩⟩ [tieB, tieA]] := by
    rw [new_bvh_helper_eq]
    rw [if_pos (by norm_num)]
    rw [htB]
    rfl
  have hright : new_bvh_helper
      [BVHTypes.Node ⟨⟨0,0,0⟩,⟨8,8,8⟩⟩ Axis.Z 2,
       BVHTypes.Leaf ⟨⟨0,0,0⟩, ⟨9/2,9/2,9/2⟩⟩ [tieB, tieA]] [tieC] =
      [BVHTypes.Node ⟨⟨0,0,0⟩,⟨8,8,8⟩⟩ Axis.Z 2,
       BVHTypes.Leaf ⟨⟨0,0,0⟩, ⟨9/2,9/2,9/2⟩⟩ [tieB, tieA],
       BVHTypes.Leaf ⟨⟨0,0,0⟩,⟨8,8,8⟩⟩ [tieC]] := by
    rw [new_bvh_helper_eq]
    rw [if_pos (by norm_num)]
    rw [htC]
    rfl
  rw [new_bvh, new_bvh_helper_eq]
  rw [if_neg (by norm_num [tieScene])]
  rw [if_neg (by rw [tie_centroidBounds, tie_cutAxis]; norm_num [Point3.index])]
  rw [if_pos (by rw [tie_minCost]; norm_num [tieScene])]
  simp only [tie_sorted, tie_minCost, tie_cutAxis, tie_totalBounds, List.nil_append,
    List.length_cons, List.length_nil, List.take, List.drop]
  rw [hleft]
  norm_num [List.set]
  rw [hright]

theorem tie_listHit : listHit tieScene tieRay 0 100 = some (tieA, 5) := by
  norm_num [listHit, hitFold, hitStep, tieScene, tieA, tieB, tieC, tieRay]

theorem tie_bvhHit :
    bvhHit (new_bvh tieScene) tieRay 0 100 (get_workspace (new_bvh tieScene))
      = some (tieC, 5) := by
  rw [tie_new_bvh]
  show bvhHit _ tieRay 0 100 (List.replicate 3 0) = _
  norm_num [bvhHit, bvhHitFull, bvhHitLoop, bvhPush, listHit, hitFold, hitStep, tieA, tieB,
    tieC, tieRay, AABB.intersect, AABB.intersect_helper, Vec3.index, Point3.index, List.set,
    List.getD, List.replicate_succ]

/-- C2: `AABB::intersect_helper` does not implement the canonical slab
test.  For the unit-ish box `[0,1]³` and the ray from `(-1,0,0)` with
direction `(1,1,1)` on axis X with `(t_min, t_max) = (0, 10)`: the slab
parameters are `t0 = 1`, `t1 = 2`, so the canonical helper would return
`(max(t0,t_min), min(t1,t_max)) = (1, 2)`, but the code returns
`(1, 10)` — the second component is `if t1 < t_min { t1 } else { t_max }`,
which yields `t_max` rather than `min(t1, t_max)` whenever
`t_min ≤ t1 < t_max`. -/
theorem intersect_helper_returns_t_max_not_t1 :
    (AABB.new ⟨0,0,0⟩ ⟨1,1,1⟩).intersect_helper ⟨⟨-1,0,0⟩, ⟨1,1,1⟩⟩ 0 10 Axis.X = (1, 10)
    ∧ max (1 : ℚ) 0 = 1 ∧ min (2 : ℚ) 10 = 2 ∧ (10 : ℚ) ≠ 2 := by
  refine ⟨?_, by norm_num, by norm_num, by norm_num⟩
  norm_num [AABB.intersect_helper, AABB.new, Vec3.index, Point3.index]

/-- C3: the suffix-union precomputation misses the last shape.  On the
sorted three-shape scene `[tieB, tieA, tieC]`, `reverse_bounds` never
writes index `n - 1 = 2`: that entry stays the `new_empty` origin box
(surface area `0`) instead of the union of the bounding boxes of shapes
`2..2`, i.e. `tieC`'s box `[7/2,8]³` (surface area `243/2`).
Consequently the SAH cost evaluated at split index `n - 2 = 1` uses
`SA(right) = 0`. -/
theorem reverse_bounds_misses_last_shape :
    reverse_bounds [tieB, tieA, tieC] =
      [⟨⟨0,0,0⟩, ⟨9/2,9/2,9/2⟩⟩, ⟨⟨0,0,0⟩, ⟨9/2,9/2,9/2⟩⟩, AABB.new_empty]
    ∧ ((reverse_bounds [tieB, tieA, tieC]).getD 2 AABB.new_empty).surface_area = 0
    ∧ tieC.get_bounding_box.surface_area = 243/2
    ∧ (reverse_bounds [tieB, tieA, tieC]).getD 2 AABB.new_empty ≠ tieC.get_bounding_box := by
  refine ⟨tie_reverse_bounds, ?_, ?_, ?_⟩
  · rw [tie_reverse_bounds]
    norm_num [AABB.new_empty, AABB.surface_area, Point3.subP, Point3.origin]
  · norm_num [tieC, AABB.surface_area, Point3.subP]
  · rw [tie_reverse_bounds]
    norm_num [AABB.new_empty, tieC, Point3.origin]

/-- C1 (counterexample): on `tieScene` with the diagonal ray and query
range `(0, 100)`, the linear scan returns shape `tieA` (the first shape,
in list order, attaining the closest hit `t = 5`) while the constructed
BVH returns the distinct shape `tieC` at the same `t = 5`: the BVH visits
the right subtree first for a ray with non-negative direction along the
cut axis, so a tie at the closest `t` is resolved differently than by the
list scan.  The hit parameters agree; the returned shapes do not. -/
theorem bvh_hit_tie_counterexample :
    listHit tieScene tieRay 0 100 = some (tieA, 5)
    ∧ bvhHit (new_bvh tieScene) tieRay 0 100 (get_workspace (new_bvh tieScene))
        = some (tieC, 5)
    ∧ tieA.get_bounding_box ≠ tieC.get_bounding_box := by
  refine ⟨tie_listHit, tie_bvhHit, ?_⟩
  norm_num [tieA, tieC]

theorem index_point_at (r : Ray) (t : ℚ) (ax : Axis) :
    (r.point_at t).index ax = r.origin.index ax + r.dir.index ax * t := by
  cases ax <;> simp [Ray.point_at, Point3.addV, Vec3.smul, Point3.index, Vec3.index, mul_comm]

/-- Per-axis step for the completeness proof: if the ray parameter `t`
of a point inside the slab lies in `[a, bmax)`, the helper's returned
interval still satisfies `fst ≤ t` and (because of the `t1 < t_min`
comparison) `snd = bmax`. -/
theorem intersect_helper_keeps (b : AABB) (r : Ray) (a bmax t : ℚ) (ax : Axis)
    (hd : r.dir.index ax ≠ 0)
    (hmin : b.min.index ax ≤ (r.point_at t).index ax)
    (hmax : (r.point_at t).index ax ≤ b.max.index ax)
    (ha : a ≤ t) (hb : t < bmax) :
    (b.intersect_helper r a bmax ax).1 ≤ t ∧ (b.intersect_helper r a bmax ax).2 = bmax := by
  rw [index_point_at] at hmin hmax
  rcases lt_or_gt_of_ne hd with hneg | hpos
  · have hinv : 1 / r.dir.index ax < 0 := by
      exact one_div_neg.mpr hneg
    have ht1 : (b.max.index ax - r.origin.index ax) * (1 / r.dir.index ax) ≤ t := by
      rw [mul_one_div]
      rw [div_le_iff_of_neg hneg]
      linarith
    have ht0 : t ≤ (b.min.index ax - r.origin.index ax) * (1 / r.dir.index ax) := by
      rw [mul_one_div]
      rw [le_div_iff_of_neg hneg]
      linarith
    unfold AABB.intersect_helper
    dsimp only
    rw [if_pos hinv]
    dsimp only
    constructor
    · split
      · exact ht1
      · exact ha
    · rw [if_neg (by linarith)]
  · have hinv : ¬ (1 / r.dir.index ax < 0) := by
      push_neg
      positivity
    have ht0 : (b.min.index ax - r.origin.index ax) * (1 / r.dir.index ax) ≤ t := by
      rw [mul_one_div]
      rw [div_le_iff hpos]
      linarith
    have ht1 : t ≤ (b.max.index ax - r.origin.index ax) * (1 / r.dir.index ax) := by
      rw [mul_one_div]
      rw [le_div_iff hpos]
      linarith
    unfold AABB.intersect_helper
    dsimp only
    rw [if_neg hinv]
    dsimp only
    constructor
    · split
      · exact ht0
      · exact ha
    · rw [if_neg (by linarith)]

/-- C5: completeness of `AABB::intersect` with respect to containment:
if some parameter `t` strictly inside `(t_min, t_max)` puts the ray's
point inside the box (componentwise `min ≤ point ≤ max`), `intersect`
returns `true`.  The nonzero-direction hypothesis reflects that the `ℚ`
model cannot represent the IEEE infinities produced by `1.0 / 0.0`
(with `f32` semantics a zero direction component also cannot cause a
false reject for a contained point, but that case is outside this
model). -/
theorem aabb_intersect_complete (b : AABB) (r : Ray) (t_min t_max t : ℚ)
    (hd : ∀ ax : Axis, r.dir.index ax ≠ 0)
    (hin : ∀ ax : Axis, b.min.index ax ≤ (r.point_at t).index ax
           ∧ (r.point_at t).index ax ≤ b.max.index ax)
    (hlo : t_min < t) (hhi : t < t_max) :
    b.intersect r t_min t_max = true := by
  obtain ⟨hx1, hx2⟩ := intersect_helper_keeps b r t_min t_max t Axis.X (hd _)
    (hin Axis.X).1 (hin Axis.X).2 (le_of_lt hlo) hhi
  unfold AABB.intersect
  rcases hX : b.intersect_helper r t_min t_max Axis.X with ⟨tmx, tMx⟩
  rw [hX] at hx1 hx2
  dsimp only at hx1 hx2
  dsimp only
  rw [hx2]
  rw [if_neg (by push_neg; linarith)]
  obtain ⟨hy1, hy2⟩ := intersect_helper_keeps b r tmx t_max t Axis.Y (hd _)
    (hin Axis.Y).1 (hin Axis.Y).2 hx1 hhi
  rcases hY : b.intersect_helper r tmx t_max Axis.Y with ⟨tmy, tMy⟩
  rw [hY] at hy1 hy2
  dsimp only at hy1 hy2
  dsimp only
  rw [hy2]
  rw [if_neg (by push_neg; linarith)]
  obtain ⟨hz1, hz2⟩ := intersect_helper_keeps b r tmy t_max t Axis.Z (hd _)
    (hin Axis.Z).1 (hin Axis.Z).2 hy1 hhi
  rcases hZ : b.intersect_helper r tmy t_max Axis.Z with ⟨tmz, tMz⟩
  rw [hZ] at hz1 hz2
  dsimp only at hz1 hz2
  dsimp only
  rw [hz2]
  rw [if_neg (by push_neg; linarith)]

/-- C5 witness: the box `[0,2]³`, the ray from the origin along `(1,1,1)`,
and `t = 1 ∈ (0, 2)` with `ray(1) = (1,1,1)` inside the box. -/
theorem aabb_intersect_complete_witness :
    (AABB.new ⟨0,0,0⟩ ⟨2,2,2⟩).intersect ⟨⟨0,0,0⟩, ⟨1,1,1⟩⟩ 0 2 = true :=
  aabb_intersect_complete _ _ _ _ 1
    (by intro ax; cases ax <;> simp [Vec3.index])
    (by intro ax; cases ax <;>
      simp [Vec3.index, Point3.index, Ray.point_at, Point3.addV, Vec3.smul, AABB.new] <;>
      norm_num)
    (by norm_num) (by norm_num)

/-! ## Materials (`material.rs`, `volume.rs`) -/

/-- The five `Material` implementations of the repository. -/
inductive MaterialKind : Type
  | Lambert
  | Metal
  | Dielectric
  | DiffuseLight
  | Isotropic
deriving DecidableEq, Repr

/-- Whether the variant's `emit` can return `Some`: only `DiffuseLight`
overrides the trait's default `emit` (which returns `None`); `Lambert`,
`Metal`, `Dielectric` and `Isotropic` all keep the default. -/
def emitsLight : MaterialKind → Bool
  | MaterialKind.DiffuseLight => true
  | _ => false

/-- Whether the variant's `scatter` produces a `Reflectance::Specular`
value: `Metal` and `Dielectric` always do; `Isotropic` also returns
`Specular` (`volume.rs`, with the comment that this is "technically not
correct" and only done so the volume does not use a PDF); `Lambert`
returns a `Reflectance::PDF`; `DiffuseLight::scatter` returns `None`. -/
def scattersSpecular : MaterialKind → Bool
  | MaterialKind.Metal => true
  | MaterialKind.Dielectric => true
  | MaterialKind.Isotropic => true
  | _ => false

/-- `is_important()` per variant, transcribed from `material.rs` and
`volume.rs`. -/
def is_important : MaterialKind → Bool
  | MaterialKind.Lambert => false
  | MaterialKind.Metal => true
  | MaterialKind.Dielectric => true
  | MaterialKind.DiffuseLight => true
  | MaterialKind.Isotropic => false

/-- C7 (counterexample): `Isotropic` scatters with a
`Reflectance::Specular` and never emits, yet `is_important()` is `false`,
so "is_important() is true iff the material emits or its scatter produces
specular reflections" fails on the `Isotropic` variant. -/
theorem is_important_iff_fails_for_isotropic :
    is_important MaterialKind.Isotropic = false
    ∧ (emitsLight MaterialKind.Isotropic || scattersSpecular MaterialKind.Isotropic) = true := by
  decide

/-- C7 (amended): for every material variant other than `Isotropic`,
`is_important()` is `true` exactly when the material emits or its scatter
produces a specular reflectance.  `Isotropic` is the one exception: its
specular reflectance is a declared workaround (not meant to be
importance-sampled) and its `is_important()` is `false`. -/
theorem is_important_iff_emits_or_specular_except_isotropic
    (m : MaterialKind) (h : m ≠ MaterialKind.Isotropic) :
    is_important m = (emitsLight m || scattersSpecular m) := by
  cases m
  · decide
  · decide
  · decide
  · decide
  · exact absurd rfl h

/-- C7 witness: the `Metal` variant. -/
theorem is_important_iff_emits_or_specular_witness :
    MaterialKind.Metal ≠ MaterialKind.Isotropic
    ∧ is_important MaterialKind.Metal
      = (emitsLight MaterialKind.Metal || scattersSpecular MaterialKind.Metal) :=
  ⟨by decide, is_important_iff_emits_or_specular_except_isotropic MaterialKind.Metal (by decide)⟩

/-! ## Triangles (`shape.rs`) -/

/-- `TriangleMesh` from `shape.rs`.  The `material: Arc<SyncMaterial>`
trait-object handle is modelled as an opaque numeric handle; it plays no
role in the indexing contract. -/
structure TriangleMesh : Type where
  vertices : List Point3
  tex_coords : List (ℚ × ℚ)
  enable_backface_culling : Bool
  material : ℕ
deriving DecidableEq, Repr

/-- `Triangle` from `shape.rs`. -/
structure Triangle : Type where
  triangle_mesh : TriangleMesh
  v0 : ℕ
  v1 : ℕ
  v2 : ℕ
  t0 : Option ℕ
  t1 : Option ℕ
  t2 : Option ℕ
deriving DecidableEq, Repr

/-- The `t >= mesh.tex_coords.len()` test applied to an optional texture
index (the body of each of the three `match` arms in `Triangle::new`). -/
def tex_index_oob (tex_coords : List (ℚ × ℚ)) : Option ℕ → Bool
  | some t => decide (tex_coords.length ≤ t)
  | none => false

/-- `Triangle::new` from `shape.rs`: vertex-index and texture-index range
checks, then construction.  The Rust `format!` error strings are
abbreviated; only the `Err`/`Ok` outcome is contract-relevant. -/
def Triangle.new (mesh : TriangleMesh) (v0 v1 v2 : ℕ) (t0 t1 t2 : Option ℕ) :
    Except String Triangle :=
  if mesh.vertices.isEmpty ∨ mesh.vertices.length - 1 < v0
      ∨ mesh.vertices.length - 1 < v1 ∨ mesh.vertices.length - 1 < v2 then
    Except.error "Triangle mesh has too few vertices for the given vertex indices."
  else if tex_index_oob mesh.tex_coords t0 then
    Except.error "Triangle texture coordinates are too short for texture index 0."
  else if tex_index_oob mesh.tex_coords t1 then
    Except.error "Triangle texture coordinates are too short for texture index 1."
  else if tex_index_oob mesh.tex_coords t2 then
    Except.error "Triangle texture coordinates are too short for texture index 2."
  else
    Except.ok ⟨mesh, v0, v1, v2, t0, t1, t2⟩

theorem tex_index_oob_iff (tex : List (ℚ × ℚ)) (t : Option ℕ) :
    tex_index_oob tex t = true ↔ ∃ k, t = some k ∧ tex.length ≤ k := by
  cases t <;> simp [tex_index_oob]

/-- C9: `Triangle::new` returns an error exactly when the mesh's vertex
array is empty, a vertex index exceeds the last vertex index, or a
provided texture-coordinate index is at or beyond the length of the
texture-coordinate array; otherwise it returns `Ok` with a `Triangle`
carrying exactly the given mesh and indices.  The failure is a returned
`Result::Err` (a load-time error), not a panic. -/
theorem triangle_new_error_iff (mesh : TriangleMesh) (v0 v1 v2 : ℕ)
    (t0 t1 t2 : Option ℕ) :
    ((∃ e, Triangle.new mesh v0 v1 v2 t0 t1 t2 = Except.error e) ↔
      (mesh.vertices = [] ∨ mesh.vertices.length - 1 < v0
        ∨ mesh.vertices.length - 1 < v1 ∨ mesh.vertices.length - 1 < v2
        ∨ (∃ k, t0 = some k ∧ mesh.tex_coords.length ≤ k)
        ∨ (∃ k, t1 = some k ∧ mesh.tex_coords.length ≤ k)
        ∨ (∃ k, t2 = some k ∧ mesh.tex_coords.length ≤ k)))
    ∧ (∀ tri, Triangle.new mesh v0 v1 v2 t0 t1 t2 = Except.ok tri →
        tri = ⟨mesh, v0, v1, v2, t0, t1, t2⟩) := by
  unfold Triangle.new
  split_ifs with h1 h2 h3 h4
  · constructor
    · simp only [List.isEmpty_iff] at h1
      constructor
      · intro _
        rcases h1 with h | h | h | h
        · exact Or.inl h
        · exact Or.inr (Or.inl h)
        · exact Or.inr (Or.inr (Or.inl h))
        · exact Or.inr (Or.inr (Or.inr (Or.inl h)))
      · intro _
        exact ⟨_, rfl⟩
    · intro tri htri
      cases htri
  · rw [tex_index_oob_iff] at h2
    constructor
    · constructor
      · intro _
        exact Or.inr (Or.inr (Or.inr (Or.inr (Or.inl h2))))
      · intro _
        exact ⟨_, rfl⟩
    · intro tri htri
      cases htri
  · rw [tex_index_oob_iff] at h3
    constructor
    · constructor
      · intro _
        exact Or.inr (Or.inr (Or.inr (Or.inr (Or.inr (Or.inl h3)))))
      · intro _
        exact ⟨_, rfl⟩
    · intro tri htri
      cases htri
  · rw [tex_index_oob_iff] at h4
    constructor
    · constructor
      · intro _
        exact Or.inr (Or.inr (Or.inr (Or.inr (Or.inr (Or.inr h4)))))
      · intro _
        exact ⟨_, rfl⟩
    · intro tri htri
      cases htri
  · constructor
    · constructor
      · intro ⟨e, he⟩
        cases he
      · intro hcase
        exfalso
        simp only [List.isEmpty_iff] at h1
        rcases hcase with h | h | h | h | h | h | h
        · exact h1 (Or.inl h)
        · exact h1 (Or.inr (Or.inl h))
        · exact h1 (Or.inr (Or.inr (Or.inl h)))
        · exact h1 (Or.inr (Or.inr (Or.inr h)))
        · exact h2 ((tex_index_oob_iff _ _).mpr h)
        · exact h3 ((tex_index_oob_iff _ _).mpr h)
        · exact h4 ((tex_index_oob_iff _ _).mpr h)
    · intro tri htri
      cases htri
      rfl

/-! ## The path integrator (`aggregate.rs::trace`)

The integrator consumes shapes through `get_hit_properties`,
`get_material().emit` and `get_material().scatter`, PDFs through
`value` / `generate`, and the scene-wide important-samples PDF through
`is_valid` / `pair_generate` / `pair_value`.  Those collaborators (which
in the source also consume the thread's random number generator) are
abstracted as function parameters; the recursion and control flow of
`trace` itself are transcribed exactly. -/

/-- `RGB` from `color.rs`, over `ℚ`. -/
structure RGB : Type where
  r : ℚ
  g : ℚ
  b : ℚ
deriving DecidableEq, Repr

/-- `RGB::black`. -/
def RGB.black : RGB := ⟨0, 0, 0⟩

/-- `impl ops::Mul for RGB` (componentwise). -/
def RGB.mul (c1 c2 : RGB) : RGB := ⟨c1.r * c2.r, c1.g * c2.g, c1.b * c2.b⟩

/-- `impl ops::Mul<f32> for RGB`. -/
def RGB.smul (c : RGB) (s : ℚ) : RGB := ⟨c.r * s, c.g * s, c.b * s⟩

/-- `impl ops::Div<f32> for RGB`. -/
def RGB.divS (c : RGB) (s : ℚ) : RGB := ⟨c.r / s, c.g / s, c.b / s⟩

/-- `utils::clamp`. -/
def clamp (v min max : ℚ) : ℚ :=
  if v > max then max else if v < min then min else v

/-- `HitProperties` from `shape.rs`. -/
structure HitProperties : Type where
  hit_point : Point3
  normal : Vec3
  u : ℚ
  v : ℚ
  pu : Vec3
  pv : Vec3

/-- A `dyn PDF` trait object (`pdf.rs`): its `value` and `generate`
methods.  (`generate` is randomized in the source; here it is an
arbitrary given function.) -/
structure PDFobj : Type where
  value : Ray → ℚ
  generate : Point3 → Vec3

/-- `Reflectance` from `material.rs`. -/
inductive Reflectance : Type
  | Specular (r : Ray)
  | PDF (hit_pdf : PDFobj)

/-- `ScatterProperties` from `material.rs`. -/
structure ScatterProperties : Type where
  reflectance : Reflectance
  attenuation : RGB

/-- The shape/material surface consumed by `trace`: the shape's
`get_hit_properties` and its material's `emit` and `scatter`. -/
structure TraceShape : Type where
  get_hit_properties : Ray → ℚ → HitProperties
  emit : Ray → HitProperties → Option RGB
  scatter : Ray → HitProperties → Option ScatterProperties

/-- `MAX_DEPTH` from `aggregate.rs`. -/
def MAX_DEPTH : ℤ := 50

/-- `trace` from `aggregate.rs`.  `hitW` is the `hit` convenience
function (the aggregate together with the workspace, queried over the
full `(T_MIN, T_MAX)` range); `important_valid` is
`important_samples.is_valid()`; `pair_generate`/`pair_value` are
`pdf::pair_generate`/`pdf::pair_value` with the important-samples PDF
already applied. -/
def trace (hitW : Ray → Option (TraceShape × ℚ)) (important_valid : Bool)
    (pair_generate : PDFobj → Point3 → Vec3) (pair_value : PDFobj → Ray → ℚ)
    (bg_func : Ray → RGB) (r : Ray) (depth : ℤ) : RGB :=
  let hit_shape := hitW r
  if h : depth < MAX_DEPTH then
    match hit_shape with
    | some (s, t) =>
      let hp0 := s.get_hit_properties r t
      let hit_props := { hp0 with u := clamp hp0.u 0 1, v := clamp hp0.v 0 1 }
      match s.emit r hit_props with
      | some e => e
      | none =>
        match s.scatter r hit_props with
        | some scattered_props =>
          match scattered_props.reflectance with
          | Reflectance.Specular r2 =>
            RGB.mul scattered_props.attenuation
              (trace hitW important_valid pair_generate pair_value bg_func r2 (depth + 1))
          | Reflectance.PDF hit_pdf =>
            let sp :=
              if important_valid then
                let scattered := Ray.mk hit_props.hit_point
                  (pair_generate hit_pdf hit_props.hit_point)
                (scattered, pair_value hit_pdf scattered)
              else
                let scattered := Ray.mk hit_props.hit_point
                  (hit_pdf.generate hit_props.hit_point)
                (scattered, hit_pdf.value scattered)
            RGB.divS
              (RGB.mul (RGB.smul scattered_props.attenuation (hit_pdf.value sp.1))
                (trace hitW important_valid pair_generate pair_value bg_func sp.1 (depth + 1)))
              sp.2
        | none => RGB.black
    | none => bg_func r
  else bg_func r
termination_by (MAX_DEPTH - depth).toNat
decreasing_by
  all_goals
    simp only [MAX_DEPTH] at h ⊢
    omega

/-- C6: every recursive call of `trace` is at `depth + 1` (visible in the
definition), and whenever `depth ≥ MAX_DEPTH = 50` the function returns
the background colour `bg_func r` regardless of the aggregate, materials
and PDFs, so the recursion never exceeds depth 50 and `trace` is a total
function. -/
theorem trace_depth_ge_max_returns_bg (hitW : Ray → Option (TraceShape × ℚ))
    (important_valid : Bool) (pair_generate : PDFobj → Point3 → Vec3)
    (pair_value : PDFobj → Ray → ℚ) (bg_func : Ray → RGB) (r : Ray) (depth : ℤ)
    (h : MAX_DEPTH ≤ depth) :
    trace hitW important_valid pair_generate pair_value bg_func r depth = bg_func r := by
  unfold trace
  rw [dif_neg (by omega)]

/-- C6 witness: at exactly `depth = 50` with a trivial scene. -/
theorem trace_depth_ge_max_returns_bg_witness :
    MAX_DEPTH ≤ (50 : ℤ)
    ∧ trace (fun _ => none) false (fun _ _ => ⟨0,0,0⟩) (fun _ _ => 0)
        (fun _ => ⟨1,1,1⟩) ⟨⟨0,0,0⟩, ⟨1,1,1⟩⟩ 50 = ⟨1,1,1⟩ :=
  ⟨by decide,
   trace_depth_ge_max_returns_bg (fun _ => none) false (fun _ _ => ⟨0,0,0⟩) (fun _ _ => 0)
     (fun _ => ⟨1,1,1⟩) ⟨⟨0,0,0⟩, ⟨1,1,1⟩⟩ 50 (by decide)⟩

/-! ## The sphere (`shape.rs`), over `ℝ`

`Sphere::hit` and `Sphere::pdf` compute square roots, so this part of the
embedding uses real numbers (`Real.sqrt x = 0` for `x < 0`, standing in
for the `f32` `NaN` of `(-3.0).sqrt(); either way the value is a fixed
junk value, not `0` in the `pdf` denominator's favour). -/

/-- `Vector3` over `ℝ`, for the sphere geometry. -/
structure Vec3R : Type where
  x : ℝ
  y : ℝ
  z : ℝ

/-- `Point3` over `ℝ`. -/
structure Point3R : Type where
  x : ℝ
  y : ℝ
  z : ℝ

/-- `Point3::origin`. -/
def Point3R.origin : Point3R := ⟨0, 0, 0⟩

/-- `impl ops::Sub for Point3`. -/
noncomputable def Point3R.subP (p q : Point3R) : Vec3R :=
  ⟨p.x - q.x, p.y - q.y, p.z - q.z⟩

/-- `Vector3::dot`. -/
noncomputable def Vec3R.dot (a b : Vec3R) : ℝ :=
  a.x * b.x + a.y * b.y + a.z * b.z

/-- `Vector3::squared_length`. -/
noncomputable def Vec3R.squared_length (a : Vec3R) : ℝ :=
  a.x * a.x + a.y * a.y + a.z * a.z

/-- `Ray` over `ℝ`. -/
structure RayR : Type where
  origin : Point3R
  dir : Vec3R

/-- `Matrix4` from `matrix.rs` (row-major `data[row][col]`, only indices
`0..3` are ever used), over `ℝ`. -/
structure Matrix4 : Type where
  data : ℕ → ℕ → ℝ

/-- `Matrix4::new_identity`. -/
def Matrix4.new_identity : Matrix4 :=
  ⟨fun i j => if i = j then 1 else 0⟩

/-- `impl ops::Mul<Vector3> for &Matrix4` (no translation column). -/
noncomputable def Matrix4.mulV (m : Matrix4) (v : Vec3R) : Vec3R :=
  ⟨m.data 0 0 * v.x + m.data 0 1 * v.y + m.data 0 2 * v.z,
   m.data 1 0 * v.x + m.data 1 1 * v.y + m.data 1 2 * v.z,
   m.data 2 0 * v.x + m.data 2 1 * v.y + m.data 2 2 * v.z⟩

/-- `impl ops::Mul<Point3> for &Matrix4` (with the translation column,
`w = 1`). -/
noncomputable def Matrix4.mulP (m : Matrix4) (p : Point3R) : Point3R :=
  ⟨m.data 0 0 * p.x + m.data 0 1 * p.y + m.data 0 2 * p.z + m.data 0 3 * 1,
   m.data 1 0 * p.x + m.data 1 1 * p.y + m.data 1 2 * p.z + m.data 1 3 * 1,
   m.data 2 0 * p.x + m.data 2 1 * p.y + m.data 2 2 * p.z + m.data 2 3 * 1⟩

/-- `impl ops::Mul<&Ray> for &Matrix4`. -/
noncomputable def Matrix4.mulR (m : Matrix4) (r : RayR) : RayR :=
  ⟨m.mulP r.origin, m.mulV r.dir⟩

/-- `utils::T_MIN` (the `f32` literal `0.001` idealised as `1/1000`). -/
noncomputable def T_MIN_R : ℝ := 1/1000

/-- `utils::T_MAX = std::f32::MAX`. -/
noncomputable def T_MAX_R : ℝ := 2^128 - 2^104

/-- `Sphere` from `shape.rs` (the `material` handle is omitted; it plays
no role in `hit`/`pdf`). -/
structure Sphere : Type where
  local_to_world : Matrix4
  world_to_local : Matrix4
  radius : ℝ

/-- `Sphere::hit` (`impl Shape for Sphere`). -/
noncomputable def Sphere.hit (s : Sphere) (r : RayR) (t_min t_max : ℝ) : Option ℝ :=
  let local_ray := s.world_to_local.mulR r
  let towards_origin := local_ray.origin.subP Point3R.origin
  let a := local_ray.dir.dot local_ray.dir
  let b := 2 * towards_origin.dot local_ray.dir
  let c := towards_origin.dot towards_origin - s.radius * s.radius
  let discriminant := b * b - 4 * a * c
  if discriminant > 0 then
    let t_hit := (-b - Real.sqrt discriminant) / (2 * a)
    let t_hit :=
      if t_hit ≥ t_max ∨ t_hit ≤ t_min then (-b + Real.sqrt discriminant) / (2 * a) else t_hit
    if t_hit < t_max ∧ t_hit > t_min then some t_hit else none
  else none

/-- `Sphere::pdf` (`impl Shape for Sphere`): no inside-the-sphere check
guards the square root in `cos_theta_max`. -/
noncomputable def Sphere.pdf (s : Sphere) (r : RayR) : ℝ :=
  match s.hit r T_MIN_R T_MAX_R with
  | none => 0
  | some _ =>
    let local_ray := s.world_to_local.mulR r
    let cos_theta_max := Real.sqrt
      (1 - s.radius * s.radius / (Point3R.origin.subP local_ray.origin).squared_length)
    let solid_angle := 2 * Real.pi * (1 - cos_theta_max)
    1 / solid_angle

/-- The unit sphere at the origin (identity transforms). -/
def unitSphere : Sphere :=
  ⟨Matrix4.new_identity, Matrix4.new_identity, 1⟩

/-- A ray starting strictly inside the unit sphere. -/
noncomputable def insideRay : RayR := ⟨⟨1/2, 0, 0⟩, ⟨1, 0, 0⟩⟩

theorem insideRay_local : unitSphere.world_to_local.mulR insideRay = insideRay := by
  show Matrix4.mulR _ _ = _
  unfold Matrix4.mulR Matrix4.mulP Matrix4.mulV unitSphere Matrix4.new_identity insideRay
  norm_num

theorem insideRay_hit : unitSphere.hit insideRay T_MIN_R T_MAX_R = some (1/2) := by
  unfold Sphere.hit
  rw [insideRay_local]
  have hd : ((2:ℝ) * ((insideRay.origin.subP Point3R.origin).dot insideRay.dir)) *
      (2 * ((insideRay.origin.subP Point3R.origin).dot insideRay.dir)) -
      4 * (insideRay.dir.dot insideRay.dir) *
      ((insideRay.origin.subP Point3R.origin).dot (insideRay.origin.subP Point3R.origin)
        - unitSphere.radius * unitSphere.radius) = 4 := by
    unfold insideRay Point3R.subP Vec3R.dot Point3R.origin unitSphere
    norm_num
  dsimp only
  rw [hd]
  have hs : Real.sqrt 4 = 2 := by
    rw [show (4:ℝ) = 2^2 by norm_num, Real.sqrt_sq (by norm_num : (0:ℝ) ≤ 2)]
  rw [if_pos (by norm_num)]
  rw [hs]
  have hb : (2:ℝ) * ((insideRay.origin.subP Point3R.origin).dot insideRay.dir) = 1 := by
    unfold insideRay Point3R.subP Vec3R.dot Point3R.origin
    norm_num
  have ha : (insideRay.dir.dot insideRay.dir) = (1:ℝ) := by
    unfold insideRay Vec3R.dot
    norm_num
  rw [hb, ha]
  rw [if_pos (by unfold T_MIN_R T_MAX_R; norm_num)]
  rw [if_pos (by unfold T_MIN_R T_MAX_R; norm_num)]
  norm_num

/-- C4: `Sphere::pdf` does not return `0` for a ray origin strictly
inside the sphere.  For the unit sphere and origin `(1/2,0,0)` (squared
distance `1/4 < 1`), `hit` succeeds at `t = 1/2`, and `cos_theta_max`
becomes `sqrt(1 - 1/(1/4)) = sqrt(-3)` — `NaN` in `f32`, `0` in the real
model — so the function returns `1/(2π)` in the model (`NaN` in Rust),
not the `0` the specification requires. -/
theorem sphere_pdf_inside_nonzero :
    ((unitSphere.world_to_local.mulR insideRay).origin.subP Point3R.origin).squared_length
      < unitSphere.radius * unitSphere.radius
    ∧ Sphere.pdf unitSphere insideRay = 1 / (2 * Real.pi)
    ∧ Sphere.pdf unitSphere insideRay ≠ 0 := by
  have hin : ((unitSphere.world_to_local.mulR insideRay).origin.subP Point3R.origin).squared_length
      < unitSphere.radius * unitSphere.radius := by
    rw [insideRay_local]
    unfold insideRay Point3R.subP Vec3R.squared_length Point3R.origin unitSphere
    norm_num
  have hpdf : Sphere.pdf unitSphere insideRay = 1 / (2 * Real.pi) := by
    unfold Sphere.pdf
    rw [insideRay_hit]
    rw [insideRay_local]
    have hneg : (1:ℝ) - unitSphere.radius * unitSphere.radius /
        (Point3R.origin.subP insideRay.origin).squared_length = -3 := by
      unfold insideRay Point3R.subP Vec3R.squared_length Point3R.origin unitSphere
      norm_num
    dsimp only
    rw [hneg]
    rw [Real.sqrt_eq_zero_of_nonpos (by norm_num)]
    norm_num
  refine ⟨hin, hpdf, ?_⟩
  rw [hpdf]
  have := Real.pi_ne_zero
  positivity

/-! ## Structural specification of the constructed BVH

`new_bvh_helper` appends a pre-order depth-first flattening of a binary
tree; the tree view makes the structural invariants (child offsets, box
containment, shape partition) provable by induction. -/

/-- The tree a `new_bvh_helper` call appends, before flattening. -/
inductive BVHTree : Type
  | leaf (bounding_box : AABB) (shapes : List Shape)
  | node (bounding_box : AABB) (cut_axis : Axis) (l r : BVHTree)

/-- Pre-order depth-first flattening, with `right_offset` equal to one
plus the size of the left subtree. -/
def BVHTree.flat : BVHTree → List BVHTypes
  | BVHTree.leaf b s => [BVHTypes.Leaf b s]
  | BVHTree.node b ax l r => BVHTypes.Node b ax (l.flat.length + 1) :: (l.flat ++ r.flat)

/-- The shapes stored in the tree's leaves, left to right. -/
def BVHTree.shapesOf : BVHTree → List Shape
  | BVHTree.leaf _ s => s
  | BVHTree.node _ _ l r => l.shapesOf ++ r.shapesOf

/-- The bounding box at the root. -/
def BVHTree.rootBox : BVHTree → AABB
  | BVHTree.leaf b _ => b
  | BVHTree.node b _ _ _ => b

/-- Componentwise order on points. -/
def pointLE (p q : Point3) : Prop :=
  p.x ≤ q.x ∧ p.y ≤ q.y ∧ p.z ≤ q.z

/-- `outer` contains `inner` (componentwise on both corners). -/
def boxContains (outer inner : AABB) : Prop :=
  pointLE outer.min inner.min ∧ pointLE inner.max outer.max

/-- Well-formedness of a BVH tree: each node's box contains both
children's boxes, and each leaf's box contains the bounding boxes of all
its shapes. -/
def BVHTree.WF : BVHTree → Prop
  | BVHTree.leaf b s => ∀ sh ∈ s, boxContains b sh.get_bounding_box
  | BVHTree.node b _ l r => boxContains b l.rootBox ∧ boxContains b r.rootBox ∧ l.WF ∧ r.WF

theorem pointLE_refl (p : Point3) : pointLE p p := ⟨le_refl _, le_refl _, le_refl _⟩

theorem pointLE_trans {p q s : Point3} (h1 : pointLE p q) (h2 : pointLE q s) : pointLE p s :=
  ⟨le_trans h1.1 h2.1, le_trans h1.2.1 h2.2.1, le_trans h1.2.2 h2.2.2⟩

theorem boxContains_refl (b : AABB) : boxContains b b := ⟨pointLE_refl _, pointLE_refl _⟩

theorem boxContains_trans {a b c : AABB} (h1 : boxContains a b) (h2 : boxContains b c) :
    boxContains a c :=
  ⟨pointLE_trans h1.1 h2.1, pointLE_trans h2.2 h1.2⟩

theorem pointMin_le_left (a b : Point3) : pointLE (Point3.min a b) a := by
  unfold Point3.min pointLE
  refine ⟨?_, ?_, ?_⟩ <;> dsimp only <;> split <;> linarith

theorem pointMin_le_right (a b : Point3) : pointLE (Point3.min a b) b := by
  unfold Point3.min pointLE
  refine ⟨?_, ?_, ?_⟩ <;> dsimp only <;> split <;> linarith

theorem le_pointMax_left (a b : Point3) : pointLE a (Point3.max a b) := by
  unfold Point3.max pointLE
  refine ⟨?_, ?_, ?_⟩ <;> dsimp only <;> split <;> linarith

theorem le_pointMax_right (a b : Point3) : pointLE b (Point3.max a b) := by
  unfold Point3.max pointLE
  refine ⟨?_, ?_, ?_⟩ <;> dsimp only <;> split <;> linarith

theorem pointLE_min {x a b : Point3} (ha : pointLE x a) (hb : pointLE x b) :
    pointLE x (Point3.min a b) := by
  obtain ⟨ha1, ha2, ha3⟩ := ha
  obtain ⟨hb1, hb2, hb3⟩ := hb
  unfold Point3.min pointLE
  refine ⟨?_, ?_, ?_⟩ <;> dsimp only <;> split <;> linarith

theorem pointMax_le {a b x : Point3} (ha : pointLE a x) (hb : pointLE b x) :
    pointLE (Point3.max a b) x := by
  obtain ⟨ha1, ha2, ha3⟩ := ha
  obtain ⟨hb1, hb2, hb3⟩ := hb
  unfold Point3.max pointLE
  refine ⟨?_, ?_, ?_⟩ <;> dsimp only <;> split <;> linarith

/-- `union box1 box2` contains `box1`. -/
theorem union_contains_left (b1 b2 : AABB) : boxContains (AABB.union b1 b2) b1 :=
  ⟨pointMin_le_left _ _, le_pointMax_left _ _⟩

/-- `union box1 box2` contains `box2`. -/
theorem union_contains_right (b1 b2 : AABB) : boxContains (AABB.union b1 b2) b2 :=
  ⟨pointMin_le_right _ _, le_pointMax_right _ _⟩

/-- If `X` contains both boxes it contains their union. -/
theorem contains_union {X a b : AABB} (ha : boxContains X a) (hb : boxContains X b) :
    boxContains X (AABB.union a b) :=
  ⟨pointLE_min ha.1 hb.1, pointMax_le ha.2 hb.2⟩

theorem foldl_union_contains_init (l : List Shape) :
    ∀ init : AABB,
      boxContains (l.foldl (fun acc s => AABB.union acc s.get_bounding_box) init) init := by
  induction l with
  | nil => intro init; exact boxContains_refl _
  | cons a l ih =>
      intro init
      exact boxContains_trans (ih _) (union_contains_left _ _)

theorem foldl_union_contains_mem (l : List Shape) :
    ∀ (init : AABB) (s : Shape), s ∈ l →
      boxContains (l.foldl (fun acc s => AABB.union acc s.get_bounding_box) init)
        s.get_bounding_box := by
  induction l with
  | nil => intro _ s hs; cases hs
  | cons a l ih =>
      intro init s hs
      rw [List.foldl_cons]
      rcases List.mem_cons.mp hs with rfl | hs
      · exact boxContains_trans (foldl_union_contains_init l _) (union_contains_right _ _)
      · exact ih _ _ hs

/-- `totalBounds l` contains the bounding box of every member of `l`. -/
theorem totalBounds_contains_mem {l : List Shape} {s : Shape} (hs : s ∈ l) :
    boxContains (totalBounds l) s.get_bounding_box :=
  foldl_union_contains_mem l _ s hs

/-- `totalBounds l` contains `new_empty` (the fold's initial value). -/
theorem totalBounds_contains_empty (l : List Shape) :
    boxContains (totalBounds l) AABB.new_empty :=
  foldl_union_contains_init l _

theorem foldl_union_le (l : List Shape) :
    ∀ (init : AABB) (X : AABB), boxContains X init → (∀ s ∈ l, boxContains X s.get_bounding_box) →
      boxContains X (l.foldl (fun acc s => AABB.union acc s.get_bounding_box) init) := by
  induction l with
  | nil => intro init X hX _; exact hX
  | cons a l ih =>
      intro init X hX hall
      rw [List.foldl_cons]
      refine ih _ _ (contains_union hX (hall a (by simp))) ?_
      intro s hs
      exact hall s (List.mem_cons_of_mem _ hs)

/-- If `X` contains `new_empty` and every member's box, it contains
`totalBounds l`. -/
theorem contains_totalBounds {l : List Shape} {X : AABB}
    (h0 : boxContains X AABB.new_empty)
    (hall : ∀ s ∈ l, boxContains X s.get_bounding_box) :
    boxContains X (totalBounds l) :=
  foldl_union_le l _ X h0 hall

theorem set_at_append {α : Type} (l1 : List α) (x y : α) (l2 : List α) :
    (l1 ++ x :: l2).set l1.length y = l1 ++ y :: l2 := by
  induction l1 with
  | nil => rfl
  | cons a l ih => simp [List.set, ih]

theorem bvhSorted_perm (shapes : List Shape) : (bvhSorted shapes).Perm shapes :=
  List.perm_insertionSort _ _

/-- The central construction lemma: a call of `new_bvh_helper` appends the
flattening of a well-formed tree whose root box is `totalBounds shapes`
and whose leaves hold a permutation of `shapes`. -/
theorem new_bvh_helper_spec :
    ∀ (n : ℕ) (shapes : List Shape), shapes.length ≤ n →
    ∀ bvh : List BVHTypes, ∃ T : BVHTree,
      new_bvh_helper bvh shapes = bvh ++ T.flat
      ∧ T.WF
      ∧ T.rootBox = totalBounds shapes
      ∧ T.shapesOf.Perm shapes := by
  intro n
  induction n with
  | zero =>
      intro shapes hlen bvh
      refine ⟨BVHTree.leaf (totalBounds shapes) shapes, ?_, ?_, rfl, List.Perm.refl _⟩
      · rw [new_bvh_helper_eq, if_pos (by omega)]
        rfl
      · intro sh hs
        exact totalBounds_contains_mem hs
  | succ n ih =>
      intro shapes hlen bvh
      rw [new_bvh_helper_eq]
      by_cases h2 : shapes.length ≤ 2
      · rw [if_pos h2]
        exact ⟨BVHTree.leaf (totalBounds shapes) shapes, rfl,
          fun sh hs => totalBounds_contains_mem hs, rfl, List.Perm.refl _⟩
      · rw [if_neg h2]
        by_cases hcb : (centroidBounds shapes).max.index (bvhCutAxis shapes)
            = (centroidBounds shapes).min.index (bvhCutAxis shapes)
        · rw [if_pos hcb]
          exact ⟨BVHTree.leaf (totalBounds shapes) shapes, rfl,
            fun sh hs => totalBounds_contains_mem hs, rfl, List.Perm.refl _⟩
        · rw [if_neg hcb]
          by_cases hmc : (bvhMinCost shapes).1 < (shapes.length : ℚ)
          · rw [if_pos hmc]
            have hidx := bvhMinCost_idx_lt shapes (by omega)
            have hslen := length_bvhSorted shapes
            have hfirst : ((bvhSorted shapes).take ((bvhMinCost shapes).2 + 1)).length ≤ n := by
              simp only [List.length_take]
              omega
            have hsecond : ((bvhSorted shapes).drop ((bvhMinCost shapes).2 + 1)).length ≤ n := by
              simp only [List.length_drop]
              omega
            obtain ⟨TL, hTL, wfL, boxL, permL⟩ :=
              ih _ hfirst (bvh ++ [BVHTypes.Node AABB.new_empty (bvhCutAxis shapes) 0])
            dsimp only
            rw [hTL]
            have hmemFirst : ∀ s ∈ (bvhSorted shapes).take ((bvhMinCost shapes).2 + 1),
                s ∈ shapes := by
              intro s hs
              exact (bvhSorted_perm shapes).subset (List.take_subset _ _ hs)
            have hmemSecond : ∀ s ∈ (bvhSorted shapes).drop ((bvhMinCost shapes).2 + 1),
                s ∈ shapes := by
              intro s hs
              exact (bvhSorted_perm shapes).subset (List.drop_subset _ _ hs)
            have hsetlen : (bvh ++ [BVHTypes.Node AABB.new_empty (bvhCutAxis shapes) 0]).length - 1
                = bvh.length := by
              simp
            have happ : (bvh ++ [BVHTypes.Node AABB.new_empty (bvhCutAxis shapes) 0]) ++ TL.flat
                = bvh ++ (BVHTypes.Node AABB.new_empty (bvhCutAxis shapes) 0) :: TL.flat := by
              simp
            have hofflen : ((bvh ++ [BVHTypes.Node AABB.new_empty (bvhCutAxis shapes) 0])
                  ++ TL.flat).length -
                ((bvh ++ [BVHTypes.Node AABB.new_empty (bvhCutAxis shapes) 0]).length - 1)
                = TL.flat.length + 1 := by
              simp
            rw [hofflen, hsetlen, happ, set_at_append]
            obtain ⟨TR, hTR, wfR, boxR, permR⟩ :=
              ih _ hsecond (bvh ++ (BVHTypes.Node (totalBounds shapes) (bvhCutAxis shapes)
                (TL.flat.length + 1)) :: TL.flat)
            rw [hTR]
            refine ⟨BVHTree.node (totalBounds shapes) (bvhCutAxis shapes) TL TR, ?_, ?_, rfl, ?_⟩
            · simp [BVHTree.flat]
            · refine ⟨?_, ?_, wfL, wfR⟩
              · rw [boxL]
                exact contains_totalBounds (totalBounds_contains_empty _)
                  (fun s hs => totalBounds_contains_mem (hmemFirst s hs))
              · rw [boxR]
                exact contains_totalBounds (totalBounds_contains_empty _)
                  (fun s hs => totalBounds_contains_mem (hmemSecond s hs))
            · show (TL.shapesOf ++ TR.shapesOf).Perm shapes
              refine List.Perm.trans (List.Perm.append permL permR) ?_
              rw [List.take_append_drop]
              exact bvhSorted_perm shapes
          · rw [if_neg hmc]
            refine ⟨BVHTree.leaf (totalBounds shapes) (bvhSorted shapes), rfl, ?_, rfl, ?_⟩
            · intro sh hs
              exact totalBounds_contains_mem ((bvhSorted_perm shapes).subset hs)
            · exact bvhSorted_perm shapes

theorem flat_length_pos (T : BVHTree) : 1 ≤ T.flat.length := by
  cases T <;> simp [BVHTree.flat]

theorem flat_get_zero (T : BVHTree) :
    ∃ e, T.flat.get? 0 = some e ∧ e.box = T.rootBox := by
  cases T <;> exact ⟨_, rfl, rfl⟩

/-- Flat-array well-formedness: at every interior node the stored
`right_offset` is at least 2, both child indices are in bounds (the left
child implicitly at `index + 1`), and the node's box contains both
children's boxes. -/
def arrayWF (bvh : List BVHTypes) : Prop :=
  ∀ i box ax off, bvh.get? i = some (BVHTypes.Node box ax off) →
    2 ≤ off ∧ i + off < bvh.length ∧
    (∃ e, bvh.get? (i + 1) = some e ∧ boxContains box e.box) ∧
    (∃ e, bvh.get? (i + off) = some e ∧ boxContains box e.box)

theorem flat_arrayWF : ∀ T : BVHTree, T.WF → arrayWF T.flat := by
  intro T
  induction T with
  | leaf b s =>
      intro _ i box ax off h
      cases i with
      | zero => simp [BVHTree.flat] at h
      | succ j => simp [BVHTree.flat] at h
  | node b ax l r ihl ihr =>
      intro hwf i box ax' off h
      obtain ⟨hbl, hbr, hl, hr⟩ := hwf
      have hlpos := flat_length_pos l
      have hrpos := flat_length_pos r
      cases i with
      | zero =>
          rw [show (BVHTree.node b ax l r).flat
            = BVHTypes.Node b ax (l.flat.length + 1) :: (l.flat ++ r.flat) from rfl] at h
          simp only [List.get?] at h
          have h' : BVHTypes.Node b ax (l.flat.length + 1) = BVHTypes.Node box ax' off := by
            injection h
          injection h' with h1 h2 h3
          subst h1
          subst h2
          subst h3
          refine ⟨by omega, ?_, ?_, ?_⟩
          · simp only [BVHTree.flat, List.length_cons, List.length_append]
            omega
          · obtain ⟨e, he, hbox⟩ := flat_get_zero l
            refine ⟨e, ?_, by rw [hbox]; exact hbl⟩
            show (BVHTypes.Node b ax (l.flat.length + 1) :: (l.flat ++ r.flat)).get? 1 = some e
            simp only [List.get?]
            rw [List.get?_append (by omega)]
            exact he
          · obtain ⟨e, he, hbox⟩ := flat_get_zero r
            refine ⟨e, ?_, by rw [hbox]; exact hbr⟩
            show (BVHTypes.Node b ax (l.flat.length + 1) :: (l.flat ++ r.flat)).get?
              (0 + (l.flat.length + 1)) = some e
            rw [show 0 + (l.flat.length + 1) = l.flat.length + 1 by omega]
            simp only [List.get?]
            rw [List.get?_append_right (by omega)]
            rw [show l.flat.length - l.flat.length = 0 by omega]
            exact he
      | succ j =>
          rw [show (BVHTree.node b ax l r).flat
            = BVHTypes.Node b ax (l.flat.length + 1) :: (l.flat ++ r.flat) from rfl] at h
          simp only [List.get?] at h
          by_cases hj : j < l.flat.length
          · rw [List.get?_append hj] at h
            obtain ⟨ho, hbound, ⟨e1, he1, hb1⟩, ⟨e2, he2, hb2⟩⟩ := ihl hl j box ax' off h
            refine ⟨ho, ?_, ?_, ?_⟩
            · simp only [BVHTree.flat, List.length_cons, List.length_append]
              omega
            · refine ⟨e1, ?_, hb1⟩
              show (BVHTypes.Node b ax (l.flat.length + 1) :: (l.flat ++ r.flat)).get?
                (j + 1 + 1) = some e1
              simp only [List.get?]
              rw [List.get?_append (by omega)]
              exact he1
            · refine ⟨e2, ?_, hb2⟩
              show (BVHTypes.Node b ax (l.flat.length + 1) :: (l.flat ++ r.flat)).get?
                (j + 1 + off) = some e2
              rw [show j + 1 + off = (j + off) + 1 by omega]
              simp only [List.get?]
              rw [List.get?_append (by omega)]
              exact he2
          · push_neg at hj
            rw [List.get?_append_right hj] at h
            obtain ⟨ho, hbound, ⟨e1, he1, hb1⟩, ⟨e2, he2, hb2⟩⟩ := ihr hr (j - l.flat.length)
              box ax' off h
            refine ⟨ho, ?_, ?_, ?_⟩
            · simp only [BVHTree.flat, List.length_cons, List.length_append]
              omega
            · refine ⟨e1, ?_, hb1⟩
              show (BVHTypes.Node b ax (l.flat.length + 1) :: (l.flat ++ r.flat)).get?
                (j + 1 + 1) = some e1
              simp only [List.get?]
              rw [List.get?_append_right (by omega)]
              rw [show j + 1 - l.flat.length = (j - l.flat.length) + 1 by omega]
              exact he1
            · refine ⟨e2, ?_, hb2⟩
              show (BVHTypes.Node b ax (l.flat.length + 1) :: (l.flat ++ r.flat)).get?
                (j + 1 + off) = some e2
              rw [show j + 1 + off = (j + off) + 1 by omega]
              simp only [List.get?]
              rw [List.get?_append_right (by omega)]
              rw [show j + off - l.flat.length = (j - l.flat.length) + off by omega]
              exact he2

/-- C8: every BVH produced by `new_bvh` is the pre-order depth-first
flattening of a well-formed binary tree: at every interior node the left
child sits at `index + 1` and the right child at `index + right_offset`
with `right_offset = 1 + size(left subtree) ≥ 2`, both in bounds, the
interior node's AABB contains both children's AABBs, and the shapes
stored in the leaves (in order) are a permutation of the input
collection, so every input shape appears in exactly one leaf. -/
theorem new_bvh_structural_invariant (shapes : List Shape) :
    ∃ T : BVHTree,
      new_bvh shapes = T.flat
      ∧ T.WF
      ∧ T.shapesOf.Perm shapes
      ∧ arrayWF (new_bvh shapes) := by
  obtain ⟨T, hT, hwf, _, hperm⟩ := new_bvh_helper_spec shapes.length shapes le_rfl []
  rw [new_bvh, hT]
  exact ⟨T, by simp, hwf, hperm, by simpa using flat_arrayWF T hwf⟩

/-! ## Traversal: pending-subtree view of the workspace stack -/

/-- The number of flat-array entries of a tree. -/
def BVHTree.size (T : BVHTree) : ℕ := T.flat.length

/-- `T`'s flattening occupies the slice of `bvh` starting at index `i`. -/
def SubtreeAt (bvh : List BVHTypes) (i : ℕ) (T : BVHTree) : Prop :=
  ∃ pre post, bvh = pre ++ T.flat ++ post ∧ pre.length = i

/-- The sum of the sizes of the pending subtrees (bounds the remaining
loop iterations). -/
def sizeSum (pend : List (ℕ × BVHTree)) : ℕ :=
  (pend.map (fun p => p.2.size)).sum

/-- Disjointness of the index ranges of two pending subtrees. -/
def spanDisj (p q : ℕ × BVHTree) : Prop :=
  p.1 + p.2.size ≤ q.1 ∨ q.1 + q.2.size ≤ p.1

theorem subtreeAt_get? {bvh : List BVHTypes} {i : ℕ} {T : BVHTree}
    (h : SubtreeAt bvh i T) : bvh.get? i = T.flat.get? 0 := by
  obtain ⟨pre, post, rfl, rfl⟩ := h
  rw [List.append_assoc, List.get?_append_right (le_refl _), Nat.sub_self]
  rw [List.get?_append (flat_length_pos T)]

theorem subtreeAt_bound {bvh : List BVHTypes} {i : ℕ} {T : BVHTree}
    (h : SubtreeAt bvh i T) : i + T.size ≤ bvh.length := by
  obtain ⟨pre, post, rfl, rfl⟩ := h
  simp [BVHTree.size]

theorem subtreeAt_leaf_get {bvh : List BVHTypes} {i : ℕ} {b : AABB} {s : List Shape}
    (h : SubtreeAt bvh i (BVHTree.leaf b s)) : bvh.get? i = some (BVHTypes.Leaf b s) :=
  subtreeAt_get? h

theorem subtreeAt_node_get {bvh : List BVHTypes} {i : ℕ} {b : AABB} {ax : Axis}
    {l r : BVHTree} (h : SubtreeAt bvh i (BVHTree.node b ax l r)) :
    bvh.get? i = some (BVHTypes.Node b ax (l.flat.length + 1)) :=
  subtreeAt_get? h

theorem subtreeAt_node_left {bvh : List BVHTypes} {i : ℕ} {b : AABB} {ax : Axis}
    {l r : BVHTree} (h : SubtreeAt bvh i (BVHTree.node b ax l r)) :
    SubtreeAt bvh (i + 1) l := by
  obtain ⟨pre, post, hb, rfl⟩ := h
  refine ⟨pre ++ [BVHTypes.Node b ax (l.flat.length + 1)], r.flat ++ post, ?_, by simp⟩
  rw [hb]
  show pre ++ (BVHTypes.Node b ax (l.flat.length + 1) :: (l.flat ++ r.flat)) ++ post = _
  simp

theorem subtreeAt_node_right {bvh : List BVHTypes} {i : ℕ} {b : AABB} {ax : Axis}
    {l r : BVHTree} (h : SubtreeAt bvh i (BVHTree.node b ax l r)) :
    SubtreeAt bvh (i + (l.flat.length + 1)) r := by
  obtain ⟨pre, post, hb, rfl⟩ := h
  refine ⟨pre ++ BVHTypes.Node b ax (l.flat.length + 1) :: l.flat, post, ?_,
    by simp <;> omega⟩
  rw [hb]
  show pre ++ (BVHTypes.Node b ax (l.flat.length + 1) :: (l.flat ++ r.flat)) ++ post = _
  simp

/-- A well-formed tree's root box contains the bounding box of every
shape stored in it. -/
theorem WF_contains_shapes : ∀ T : BVHTree, T.WF →
    ∀ s ∈ T.shapesOf, boxContains T.rootBox s.get_bounding_box := by
  intro T
  induction T with
  | leaf b sh => intro hwf s hs; exact hwf s hs
  | node b ax l r ihl ihr =>
      intro hwf s hs
      obtain ⟨hbl, hbr, hl, hr⟩ := hwf
      rcases List.mem_append.mp hs with hs | hs
      · exact boxContains_trans hbl (ihl hl s hs)
      · exact boxContains_trans hbr (ihr hr s hs)

theorem getD_of_get? {α : Type} {l : List α} {i : ℕ} {x : α} (h : l.get? i = some x)
    (d : α) : l.getD i d = x := by
  simp [List.getD_eq_getElem?_getD, ← List.get?_eq_getElem?, h]

/-- Distinct, in-bounds start indices bound the stack depth by the array
length. -/
theorem pend_length_le (bvh : List BVHTypes) (pend : List (ℕ × BVHTree))
    (hsub : ∀ p ∈ pend, SubtreeAt bvh p.1 p.2)
    (hdisj : pend.Pairwise spanDisj) : pend.length ≤ bvh.length := by
  have hnodup : (pend.map (fun p => p.1)).Nodup := by
    refine List.Pairwise.map _ ?_ hdisj
    intro p q hpq
    have hp := flat_length_pos p.2
    have hq := flat_length_pos q.2
    rcases hpq with h | h
    · simp only [BVHTree.size] at h
      omega
    · simp only [BVHTree.size] at h
      omega
  have hlt : ∀ x ∈ pend.map (fun p => p.1), x < bvh.length := by
    intro x hx
    obtain ⟨p, hp, rfl⟩ := List.mem_map.mp hx
    have := subtreeAt_bound (hsub p hp)
    have := flat_length_pos p.2
    simp only [BVHTree.size] at *
    omega
  have hcard : (pend.map (fun p => p.1)).length ≤ bvh.length := by
    have h1 : (pend.map (fun p => p.1)).length = (pend.map (fun p => p.1)).toFinset.card :=
      (List.toFinset_card_of_nodup hnodup).symm
    have h2 : (pend.map (fun p => p.1)).toFinset ⊆ Finset.range bvh.length := by
      intro x hx
      rw [Finset.mem_range]
      exact hlt x (List.mem_toFinset.mp hx)
    calc (pend.map (fun p => p.1)).length
        = (pend.map (fun p => p.1)).toFinset.card := h1
      _ ≤ (Finset.range bvh.length).card := Finset.card_le_card h2
      _ = bvh.length := Finset.card_range _
  simpa using hcard

/-- Invariant tying the workspace-stack loop state to a list of pending
subtrees (`pend`; the stack top is the last element). -/
structure LoopInv (bvh : List BVHTypes) (pend : List (ℕ × BVHTree)) (st : BVHLoopState) :
    Prop where
  count_eq : st.to_explore_count = pend.length
  ws_len : st.to_explore.length = bvh.length
  ws_at : ∀ k p, pend.get? k = some p → st.to_explore.get? k = some p.1
  sub : ∀ p ∈ pend, SubtreeAt bvh p.1 p.2
  wf : ∀ p ∈ pend, p.2.WF
  disj : pend.Pairwise spanDisj
  vis_lt : ∀ v ∈ st.visited, v < bvh.length
  vis_nodup : st.visited.Nodup
  vis_pend : ∀ v ∈ st.visited, ∀ p ∈ pend, v < p.1 ∨ p.1 + p.2.size ≤ v
  oob_false : st.oob = false
  high_le : st.count_high ≤ bvh.length

theorem size_node (b : AABB) (ax : Axis) (l r : BVHTree) :
    (BVHTree.node b ax l r).size = 1 + l.size + r.size := by
  simp [BVHTree.size, BVHTree.flat]
  omega

theorem size_pos (T : BVHTree) : 1 ≤ T.size := flat_length_pos T

/-- Updating only the running result fields preserves the invariant. -/
theorem inv_set_result {bvh : List BVHTypes} {pend : List (ℕ × BVHTree)}
    {st : BVHLoopState} (h : LoopInv bvh pend st) (t : ℚ) (hs : Option Shape) :
    LoopInv bvh pend { st with modified_t_max := t, hit_shape := hs } :=
  { h with }

/-- Popping the stack top (`pend = q ++ [p]`) preserves the invariant for
`q`, keeps `oob` false, and records a fresh in-bounds visit. -/
theorem inv_pop {bvh : List BVHTypes} {q : List (ℕ × BVHTree)} {p : ℕ × BVHTree}
    {st : BVHLoopState} (h : LoopInv bvh (q ++ [p]) st) :
    LoopInv bvh q { st with
      to_explore_count := st.to_explore_count - 1,
      visited := st.visited ++ [p.1],
      oob := st.oob || decide (st.to_explore.length ≤ st.to_explore_count - 1)
                    || decide (bvh.length ≤ p.1) } := by
  have hmem : p ∈ q ++ [p] := by simp
  have hptotal := subtreeAt_bound (h.sub p hmem)
  have hppos := size_pos p.2
  have hlen := pend_length_le bvh (q ++ [p]) h.sub h.disj
  have hql : (q ++ [p]).length = q.length + 1 := by simp
  refine
    { count_eq := by simp [h.count_eq]
      ws_len := h.ws_len
      ws_at := ?_
      sub := ?_
      wf := ?_
      disj := ?_
      vis_lt := ?_
      vis_nodup := ?_
      vis_pend := ?_
      oob_false := ?_
      high_le := h.high_le }
  · intro k pk hk
    refine h.ws_at k pk ?_
    rw [List.get?_append (by exact (List.get?_eq_some.mp hk).1)]
    exact hk
  · intro pk hk
    exact h.sub pk (List.mem_append_left _ hk)
  · intro pk hk
    exact h.wf pk (List.mem_append_left _ hk)
  · exact (List.pairwise_append.mp h.disj).1
  · intro v hv
    rcases List.mem_append.mp hv with hv | hv
    · exact h.vis_lt v hv
    · simp only [List.mem_singleton] at hv
      subst hv
      omega
  · rw [List.nodup_append]
    refine ⟨h.vis_nodup, List.nodup_singleton _, ?_⟩
    intro v hv
    have hvd := h.vis_pend v hv p hmem
    simp only [List.mem_singleton]
    intro hvp
    subst hvp
    rcases hvd with hvd | hvd <;> omega
  · intro v hv pk hk
    rcases List.mem_append.mp hv with hv | hv
    · exact h.vis_pend v hv pk (List.mem_append_left _ hk)
    · simp only [List.mem_singleton] at hv
      subst hv
      have := (List.pairwise_append.mp h.disj).2.2 pk hk p (by simp)
      rcases this with hd | hd
      · right
        exact hd
      · left
        have := size_pos p.2
        omega
  · rw [h.oob_false]
    simp only [Bool.false_or, Bool.or_eq_false_iff, decide_eq_false_iff_not, not_le]
    constructor
    · rw [h.ws_len, h.count_eq, hql]
      omega
    · omega

/-- Pushing two disjoint, in-bounds pending subtrees preserves the
invariant. -/
theorem inv_push_two {bvh : List BVHTypes} {q : List (ℕ × BVHTree)} {st : BVHLoopState}
    (h : LoopInv bvh q st)
    (c1 c2 : ℕ × BVHTree)
    (hsub1 : SubtreeAt bvh c1.1 c1.2) (hsub2 : SubtreeAt bvh c2.1 c2.2)
    (hwf1 : c1.2.WF) (hwf2 : c2.2.WF)
    (hdisj12 : spanDisj c1 c2)
    (hdisjq : ∀ p ∈ q, spanDisj p c1 ∧ spanDisj p c2)
    (hvis : ∀ v ∈ st.visited,
      (v < c1.1 ∨ c1.1 + c1.2.size ≤ v) ∧ (v < c2.1 ∨ c2.1 + c2.2.size ≤ v)) :
    LoopInv bvh (q ++ [c1, c2]) (bvhPush (bvhPush st c1.1) c2.1) := by
  have hsub' : ∀ p ∈ q ++ [c1, c2], SubtreeAt bvh p.1 p.2 := by
    intro p hp
    rcases List.mem_append.mp hp with hp | hp
    · exact h.sub p hp
    · simp only [List.mem_cons, List.not_mem_nil, or_false] at hp
      rcases hp with rfl | rfl
      · exact hsub1
      · exact hsub2
  have hwf' : ∀ p ∈ q ++ [c1, c2], p.2.WF := by
    intro p hp
    rcases List.mem_append.mp hp with hp | hp
    · exact h.wf p hp
    · simp only [List.mem_cons, List.not_mem_nil, or_false] at hp
      rcases hp with rfl | rfl
      · exact hwf1
      · exact hwf2
  have hdisj' : (q ++ [c1, c2]).Pairwise spanDisj := by
    rw [List.pairwise_append]
    refine ⟨h.disj, ?_, ?_⟩
    · refine List.pairwise_cons.mpr ⟨?_, ?_⟩
      · intro y hy
        simp only [List.mem_singleton] at hy
        subst hy
        exact hdisj12
      · exact List.pairwise_singleton _ _
    · intro p hp y hy
      simp only [List.mem_cons, List.not_mem_nil, or_false] at hy
      rcases hy with rfl | rfl
      · exact (hdisjq p hp).1
      · exact (hdisjq p hp).2
  have hbound : q.length + 2 ≤ bvh.length := by
    have := pend_length_le bvh (q ++ [c1, c2]) hsub' hdisj'
    simpa using this
  have hwslen1 : (st.to_explore.set st.to_explore_count c1.1).length = bvh.length := by
    rw [List.length_set]
    exact h.ws_len
  have hcnt : st.to_explore_count = q.length := h.count_eq
  refine
    { count_eq := ?_
      ws_len := ?_
      ws_at := ?_
      sub := hsub'
      wf := hwf'
      disj := hdisj'
      vis_lt := h.vis_lt
      vis_nodup := h.vis_nodup
      vis_pend := ?_
      oob_false := ?_
      high_le := ?_ }
  · show st.to_explore_count + 1 + 1 = (q ++ [c1, c2]).length
    simp [hcnt]
  · show ((st.to_explore.set st.to_explore_count c1.1).set (st.to_explore_count + 1) c2.1).length
      = bvh.length
    rw [List.length_set, hwslen1]
  · intro k p hk
    have hklen : k < q.length + 2 := by
      have := (List.get?_eq_some.mp hk).1
      simpa using this
    show ((st.to_explore.set st.to_explore_count c1.1).set (st.to_explore_count + 1) c2.1).get? k
      = some p.1
    by_cases hk1 : k < q.length
    · have hq : q.get? k = some p := by
        rw [List.get?_append hk1] at hk
        exact hk
      rw [List.get?_set_ne _ _ (by omega)]
      rw [List.get?_set_ne _ _ (by omega)]
      exact h.ws_at k p hq
    · by_cases hk2 : k = q.length
      · subst hk2
        have hp : p = c1 := by
          rw [List.get?_append_right (le_refl _)] at hk
          simp at hk
          exact hk.symm
        subst hp
        rw [List.get?_set_ne _ _ (by omega)]
        rw [hcnt]
        exact List.get?_set_eq_of_lt _ (by rw [h.ws_len]; omega)
      · have hk3 : k = q.length + 1 := by omega
        subst hk3
        have hp : p = c2 := by
          rw [List.get?_append_right (by omega)] at hk
          rw [show q.length + 1 - q.length = 1 by omega] at hk
          simp at hk
          exact hk.symm
        subst hp
        rw [show q.length + 1 = st.to_explore_count + 1 by omega]
        exact List.get?_set_eq_of_lt _ (by rw [hwslen1]; omega)
  · intro v hv p hp
    rcases List.mem_append.mp hp with hp | hp
    · exact h.vis_pend v hv p hp
    · simp only [List.mem_cons, List.not_mem_nil, or_false] at hp
      rcases hp with rfl | rfl
      · exact (hvis v hv).1
      · exact (hvis v hv).2
  · show (st.oob || decide (st.to_explore.length ≤ st.to_explore_count)
      || decide ((st.to_explore.set st.to_explore_count c1.1).length
          ≤ st.to_explore_count + 1)) = false
    rw [h.oob_false, List.length_set, h.ws_len]
    simp only [Bool.false_or, Bool.or_eq_false_iff, decide_eq_false_iff_not, not_le]
    omega
  · show Nat.max (Nat.max st.count_high (st.to_explore_count + 1)) (st.to_explore_count + 1 + 1)
      ≤ bvh.length
    have h1 := h.high_le
    have h2 : st.to_explore_count + 1 ≤ bvh.length := by omega
    have h3 : st.to_explore_count + 1 + 1 ≤ bvh.length := by omega
    exact Nat.max_le.mpr ⟨Nat.max_le.mpr ⟨h1, h2⟩, h3⟩

/-- Popping an interior node and pushing its two children (in either
order) preserves the invariant. -/
theorem inv_pop_push {bvh : List BVHTypes} {q : List (ℕ × BVHTree)} {i : ℕ}
    {b : AABB} {ax : Axis} {l r : BVHTree} {st : BVHLoopState}
    (h : LoopInv bvh (q ++ [(i, BVHTree.node b ax l r)]) st)
    (c1 c2 : ℕ × BVHTree)
    (hch : (c1 = (i + 1, l) ∧ c2 = (i + (l.flat.length + 1), r))
         ∨ (c1 = (i + (l.flat.length + 1), r) ∧ c2 = (i + 1, l))) :
    LoopInv bvh (q ++ [c1, c2])
      (bvhPush (bvhPush { st with
          to_explore_count := st.to_explore_count - 1,
          visited := st.visited ++ [i],
          oob := st.oob || decide (st.to_explore.length ≤ st.to_explore_count - 1)
                       || decide (bvh.length ≤ i) } c1.1) c2.1) := by
  have hpop := inv_pop (p := (i, BVHTree.node b ax l r)) h
  have hsubp : SubtreeAt bvh i (BVHTree.node b ax l r) :=
    h.sub (i, BVHTree.node b ax l r) (by simp)
  have hwfp : (BVHTree.node b ax l r).WF := h.wf (i, BVHTree.node b ax l r) (by simp)
  have hsubl := subtreeAt_node_left hsubp
  have hsubr := subtreeAt_node_right hsubp
  obtain ⟨hbl, hbr, hwl, hwr⟩ := hwfp
  have hszn : (BVHTree.node b ax l r).size = 1 + l.size + r.size := size_node b ax l r
  have hlpos := size_pos l
  have hrpos := size_pos r
  have hlsz : l.size = l.flat.length := rfl
  have hrsz : r.size = r.flat.length := rfl
  have hvis0 : ∀ v ∈ st.visited, v < i ∨ i + (BVHTree.node b ax l r).size ≤ v := by
    intro v hv
    exact h.vis_pend v hv (i, BVHTree.node b ax l r) (by simp)
  have hdisjq0 : ∀ p ∈ q, spanDisj p (i, BVHTree.node b ax l r) := by
    intro p hp
    exact (List.pairwise_append.mp h.disj).2.2 p hp (i, BVHTree.node b ax l r) (by simp)
  refine inv_push_two hpop c1 c2 ?_ ?_ ?_ ?_ ?_ ?_ ?_
  · rcases hch with ⟨rfl, rfl⟩ | ⟨rfl, rfl⟩
    · exact hsubl
    · exact hsubr
  · rcases hch with ⟨rfl, rfl⟩ | ⟨rfl, rfl⟩
    · exact hsubr
    · exact hsubl
  · rcases hch with ⟨rfl, rfl⟩ | ⟨rfl, rfl⟩
    · exact hwl
    · exact hwr
  · rcases hch with ⟨rfl, rfl⟩ | ⟨rfl, rfl⟩
    · exact hwr
    · exact hwl
  · rcases hch with ⟨rfl, rfl⟩ | ⟨rfl, rfl⟩
    · left
      simp only [BVHTree.size] at *
      omega
    · right
      simp only [BVHTree.size] at *
      omega
  · intro p hp
    have hd := hdisjq0 p hp
    unfold spanDisj at hd ⊢
    rcases hch with ⟨rfl, rfl⟩ | ⟨rfl, rfl⟩ <;>
      constructor <;> simp only [BVHTree.size] at * <;> rcases hd with hd | hd <;> omega
  · intro v hv
    rcases List.mem_append.mp hv with hv | hv
    · have hd := hvis0 v hv
      rcases hch with ⟨rfl, rfl⟩ | ⟨rfl, rfl⟩ <;>
        constructor <;> simp only [BVHTree.size] at * <;> rcases hd with hd | hd <;> omega
    · simp only [List.mem_singleton] at hv
      subst hv
      rcases hch with ⟨rfl, rfl⟩ | ⟨rfl, rfl⟩ <;>
        constructor <;> left <;> omega

theorem sizeSum_concat (q : List (ℕ × BVHTree)) (p : ℕ × BVHTree) :
    sizeSum (q ++ [p]) = sizeSum q + p.2.size := by
  simp [sizeSum]

theorem sizeSum_concat2 (q : List (ℕ × BVHTree)) (p1 p2 : ℕ × BVHTree) :
    sizeSum (q ++ [p1, p2]) = sizeSum q + p1.2.size + p2.2.size := by
  simp [sizeSum]
  omega

theorem bvhHitLoop_safe (bvh : List BVHTypes) (r : Ray) (a : ℚ) :
    ∀ (fuel : ℕ) (pend : List (ℕ × BVHTree)) (st : BVHLoopState),
      LoopInv bvh pend st → sizeSum pend ≤ fuel →
      (bvhHitLoop bvh r a fuel st).to_explore_count = 0
      ∧ (bvhHitLoop bvh r a fuel st).oob = false
      ∧ (bvhHitLoop bvh r a fuel st).count_high ≤ bvh.length
      ∧ (bvhHitLoop bvh r a fuel st).visited.Nodup
      ∧ (∀ v ∈ (bvhHitLoop bvh r a fuel st).visited, v < bvh.length) := by
  intro fuel
  induction fuel with
  | zero =>
      intro pend st hInv hfuel
      have hpend : pend = [] := by
        cases pend with
        | nil => rfl
        | cons p rest =>
            exfalso
            have := size_pos p.2
            simp [sizeSum] at hfuel
            omega
      subst hpend
      simp only [bvhHitLoop]
      exact ⟨by rw [hInv.count_eq]; rfl, hInv.oob_false, hInv.high_le, hInv.vis_nodup,
        hInv.vis_lt⟩
  | succ fuel ih =>
      intro pend st hInv hfuel
      simp only [bvhHitLoop]
      by_cases hc : st.to_explore_count = 0
      · rw [if_pos hc]
        exact ⟨hc, hInv.oob_false, hInv.high_le, hInv.vis_nodup, hInv.vis_lt⟩
      · rw [if_neg hc]
        obtain ⟨q, p, rfl⟩ : ∃ q p, pend = q ++ [p] := by
          rcases List.eq_nil_or_concat pend with rfl | ⟨q, p, hqp⟩
          · exfalso
            rw [hInv.count_eq] at hc
            exact hc rfl
          · exact ⟨q, p, by simpa [List.concat_eq_append] using hqp⟩
        have hcnt : st.to_explore_count = q.length + 1 := by
          rw [hInv.count_eq]
          simp
        have hget : st.to_explore.get? q.length = some p.1 :=
          hInv.ws_at q.length p (by rw [List.get?_concat_length])
        have hcur : st.to_explore.getD (st.to_explore_count - 1) 0 = p.1 := by
          rw [hcnt]
          simpa using getD_of_get? hget 0
        have hfq : sizeSum q ≤ fuel := by
          rw [sizeSum_concat] at hfuel
          have := size_pos p.2
          omega
        obtain ⟨i, T⟩ := p
        dsimp only
        rw [hcur]
        cases T with
        | leaf bx shapes =>
            have hgetb : bvh.getD i default = BVHTypes.Leaf bx shapes :=
              getD_of_get? (subtreeAt_leaf_get (hInv.sub (i, BVHTree.leaf bx shapes)
                (by simp))) _
            rw [hgetb]
            dsimp only
            have hpop := inv_pop (p := (i, BVHTree.leaf bx shapes)) hInv
            by_cases hbox : bx.intersect r a st.modified_t_max
            · rw [if_neg (by simpa using hbox)]
              rcases hlh : listHit shapes r a st.modified_t_max with _ | ⟨s, t⟩
              · exact ih q _ hpop hfq
              · exact ih q _ (inv_set_result hpop t (some s)) hfq
            · rw [if_pos (by simpa using hbox)]
              exact ih q _ hpop hfq
        | node bx ax l rt =>
            have hgetb : bvh.getD i default = BVHTypes.Node bx ax (l.flat.length + 1) :=
              getD_of_get? (subtreeAt_node_get (hInv.sub (i, BVHTree.node bx ax l rt)
                (by simp))) _
            rw [hgetb]
            dsimp only
            have hfq2 : sizeSum q + l.size + rt.size ≤ fuel := by
              rw [sizeSum_concat, size_node] at hfuel
              omega
            by_cases hbox : bx.intersect r a st.modified_t_max
            · rw [if_neg (by simpa using hbox)]
              by_cases hdir : r.dir.index ax < 0
              · rw [if_pos hdir]
                refine ih (q ++ [(i + (l.flat.length + 1), rt), (i + 1, l)]) _
                  (inv_pop_push hInv _ _ (Or.inr ⟨rfl, rfl⟩)) ?_
                rw [sizeSum_concat2]
                simp only [BVHTree.size] at *
                omega
              · rw [if_neg hdir]
                refine ih (q ++ [(i + 1, l), (i + (l.flat.length + 1), rt)]) _
                  (inv_pop_push hInv _ _ (Or.inl ⟨rfl, rfl⟩)) ?_
                rw [sizeSum_concat2]
                simp only [BVHTree.size] at *
                omega
            · rw [if_pos (by simpa using hbox)]
              exact ih q _ (inv_pop (p := (i, BVHTree.node bx ax l rt)) hInv) hfq

/-- The initial loop state of `<BVH as Aggregate>::hit` satisfies the
stack invariant, with the whole constructed tree as the single pending
subtree. -/
theorem init_LoopInv (shapes : List Shape) (t_max : ℚ) (T : BVHTree)
    (hT : new_bvh shapes = T.flat) (hwf : T.WF) :
    LoopInv (new_bvh shapes) [(0, T)]
      { to_explore := (get_workspace (new_bvh shapes)).set 0 0
        to_explore_count := 1
        modified_t_max := t_max
        hit_shape := none
        visited := []
        count_high := 1
        oob := decide ((get_workspace (new_bvh shapes)).length = 0) } := by
  have hlen : (new_bvh shapes).length = T.size := by rw [hT]; rfl
  have hpos : 1 ≤ (new_bvh shapes).length := by rw [hlen]; exact size_pos T
  refine
    { count_eq := rfl
      ws_len := by simp [get_workspace]
      ws_at := ?_
      sub := ?_
      wf := ?_
      disj := List.pairwise_singleton _ _
      vis_lt := by intro v hv; cases hv
      vis_nodup := List.nodup_nil
      vis_pend := by intro v hv; cases hv
      oob_false := ?_
      high_le := hpos }
  · intro k p hk
    cases k with
    | zero =>
        simp only [List.get?] at hk
        injection hk with hk
        subst hk
        show ((get_workspace (new_bvh shapes)).set 0 0).get? 0 = some 0
        exact List.get?_set_eq_of_lt _ (by simpa [get_workspace] using hpos)
    | succ j => simp at hk
  · intro p hp
    simp only [List.mem_singleton] at hp
    subst hp
    exact ⟨[], [], by simp [hT], rfl⟩
  · intro p hp
    simp only [List.mem_singleton] at hp
    subst hp
    exact hwf
  · simp only [get_workspace, List.length_replicate, decide_eq_false_iff_not]
    omega

/-- C10: for every BVH built by `new_bvh` and every query, the traversal
of `<BVH as Aggregate>::hit` with the workspace from `get_workspace` is
safe: the loop terminates with an empty stack, no workspace read/write or
node access is out of bounds (`oob = false` covers the ghost-tracked
bounds of every `to_explore` read and write and every `self[cur_idx]`),
the stack counter `to_explore_count` never exceeds the number of nodes
(`count_high` is its high-water mark), every popped node index is a valid
index, and no node is visited twice. -/
theorem bvh_hit_traversal_safe (shapes : List Shape) (r : Ray) (t_min t_max : ℚ) :
    (bvhHitFull (new_bvh shapes) r t_min t_max
        (get_workspace (new_bvh shapes))).to_explore_count = 0
    ∧ (bvhHitFull (new_bvh shapes) r t_min t_max
        (get_workspace (new_bvh shapes))).oob = false
    ∧ (bvhHitFull (new_bvh shapes) r t_min t_max
        (get_workspace (new_bvh shapes))).count_high ≤ (new_bvh shapes).length
    ∧ (bvhHitFull (new_bvh shapes) r t_min t_max
        (get_workspace (new_bvh shapes))).visited.Nodup
    ∧ ∀ v ∈ (bvhHitFull (new_bvh shapes) r t_min t_max
        (get_workspace (new_bvh shapes))).visited, v < (new_bvh shapes).length := by
  obtain ⟨T, hT, hwf, _, _⟩ := new_bvh_structural_invariant shapes
  have hlen : (new_bvh shapes).length = T.size := by rw [hT]; rfl
  have hInv := init_LoopInv shapes t_max T hT hwf
  have := bvhHitLoop_safe (new_bvh shapes) r t_min ((new_bvh shapes).length + 1)
    [(0, T)] _ hInv (by simp [sizeSum]; omega)
  exact this

/-! ## Behavioural contract of geometric shapes

Every primitive of the repository reports, for a fixed ray and fixed
`t_min`, a fixed candidate parameter filtered by the open query range
(`hit` returns `Some t` exactly when the candidate `t` lies strictly
inside `(t_min, t_max)`), and a `hit` inside the range implies the
shape's bounding box passes the AABB test of any box containing it. -/

/-- The candidate/filter contract of a shape's `hit` for a fixed ray `r`
and fixed `t_min = a`, with candidate assignment `cand`. -/
def FilterShape (cand : Shape → Option ℚ) (r : Ray) (a : ℚ) (s : Shape) : Prop :=
  (∀ t, cand s = some t → a < t) ∧
  ∀ b, s.hit r a b = (cand s).bind (fun t => if t < b then some t else none)

/-- Soundness of box pruning for a shape: if the shape hits inside the
range, every box containing its bounding box passes `AABB::intersect`. -/
def PruneSound (r : Ray) (a : ℚ) (s : Shape) : Prop :=
  ∀ box : AABB, boxContains box s.get_bounding_box →
    ∀ b, s.hit r a b ≠ none → box.intersect r a b = true

/-- A filtered shape's miss is preserved when the range shrinks. -/
theorem FilterShape.mono_none {cand : Shape → Option ℚ} {r : Ray} {a : ℚ} {s : Shape}
    (h : FilterShape cand r a s) {b b' : ℚ} (hnone : s.hit r a b = none) (hle : b' ≤ b) :
    s.hit r a b' = none := by
  rcases h with ⟨_, heq⟩
  rw [heq] at hnone ⊢
  cases hc : cand s with
  | none => rfl
  | some t =>
      rw [hc] at hnone
      simp only [Option.some_bind] at hnone ⊢
      split at hnone
      · cases hnone
      · rw [if_neg (by rename_i hlt; intro h'; exact hlt (lt_of_lt_of_le h' hle))]

/-- The step function of `candMin` (the running `modified_t_max`). -/
def candMinStep (cand : Shape → Option ℚ) (b : ℚ) (s : Shape) : ℚ :=
  match cand s with
  | some t => if t < b then t else b
  | none => b

/-- The closest-candidate fold: the final `modified_t_max` of a scan. -/
def candMin (cand : Shape → Option ℚ) (l : List Shape) (b0 : ℚ) : ℚ :=
  l.foldl (candMinStep cand) b0

theorem candMinStep_le (cand : Shape → Option ℚ) (b : ℚ) (s : Shape) :
    candMinStep cand b s ≤ b := by
  unfold candMinStep
  cases cand s with
  | none => exact le_refl _
  | some t =>
      dsimp only
      split <;> linarith

theorem candMin_le (cand : Shape → Option ℚ) (l : List Shape) :
    ∀ b0, candMin cand l b0 ≤ b0 := by
  induction l with
  | nil => intro b0; exact le_refl _
  | cons s l ih =>
      intro b0
      calc candMin cand l (candMinStep cand b0 s) ≤ candMinStep cand b0 s := ih _
        _ ≤ b0 := candMinStep_le _ _ _

theorem candMin_append (cand : Shape → Option ℚ) (l1 l2 : List Shape) (b0 : ℚ) :
    candMin cand (l1 ++ l2) b0 = candMin cand l2 (candMin cand l1 b0) := by
  simp [candMin, List.foldl_append]

theorem candMin_perm (cand : Shape → Option ℚ) {l1 l2 : List Shape} (h : l1.Perm l2)
    (b0 : ℚ) : candMin cand l1 b0 = candMin cand l2 b0 := by
  refine h.foldl_eq' ?_ b0
  intro x _ y _ z
  unfold candMinStep
  cases cand x with
  | none => cases cand y <;> rfl
  | some tx =>
      cases cand y with
      | none => rfl
      | some ty =>
          dsimp only
          split_ifs <;> first | rfl | linarith

/-- If no member's candidate beats `m`, the fold stays at `m`. -/
theorem candMin_no_improve (cand : Shape → Option ℚ) (l : List Shape) :
    ∀ m, (∀ d ∈ l, ∀ t, cand d = some t → m ≤ t) → candMin cand l m = m := by
  induction l with
  | nil => intro m _; rfl
  | cons s l ih =>
      intro m hall
      show candMin cand l (candMinStep cand m s) = m
      have hstep : candMinStep cand m s = m := by
        unfold candMinStep
        cases hc : cand s with
        | none => rfl
        | some t =>
            dsimp only
            rw [if_neg (by have := hall s (by simp) t hc; linarith)]
      rw [hstep]
      exact ih m (fun d hd => hall d (List.mem_cons_of_mem _ hd))

/-- The scan's running `modified_t_max` is the closest-candidate fold. -/
theorem hitFold_snd (cand : Shape → Option ℚ) (r : Ray) (a : ℚ) (l : List Shape) :
    ∀ st : Option Shape × ℚ, (∀ s ∈ l, FilterShape cand r a s) →
      (hitFold r a l st).2 = candMin cand l st.2 := by
  induction l with
  | nil => intro st _; rfl
  | cons s l ih =>
      intro st hgood
      show (hitFold r a l (hitStep r a st s)).2 = candMin cand l (candMinStep cand st.2 s)
      have hstep : (hitStep r a st s).2 = candMinStep cand st.2 s := by
        unfold hitStep candMinStep
        rw [(hgood s (by simp)).2 st.2]
        cases hc : cand s with
        | none => rfl
        | some t =>
            dsimp only [Option.some_bind]
            by_cases hlt : t < st.2
            · simp only [if_pos hlt]
            · simp only [if_neg hlt]
      rw [← hstep]
      exact ih _ (fun x hx => hgood x (List.mem_cons_of_mem _ hx))

/-- The scan's final shape: either nothing improved on the initial
`t_max` (state unchanged), or the final `t_max` is one of the scanned
candidates and the final shape one of its owners. -/
theorem hitFold_fst_cases (cand : Shape → Option ℚ) (r : Ray) (a : ℚ) (l : List Shape) :
    ∀ st : Option Shape × ℚ, (∀ s ∈ l, FilterShape cand r a s) →
      (candMin cand l st.2 = st.2 ∧ (hitFold r a l st).1 = st.1)
      ∨ (candMin cand l st.2 < st.2 ∧ ∃ s ∈ l, (hitFold r a l st).1 = some s
          ∧ cand s = some (candMin cand l st.2)) := by
  induction l with
  | nil => intro st _; exact Or.inl ⟨rfl, rfl⟩
  | cons s l ih =>
      intro st hgood
      have hgood' : ∀ x ∈ l, FilterShape cand r a x :=
        fun x hx => hgood x (List.mem_cons_of_mem _ hx)
      have hs := (hgood s (by simp))
      have hstep2 : (hitStep r a st s).2 = candMinStep cand st.2 s := by
        unfold hitStep candMinStep
        rw [hs.2 st.2]
        cases hc : cand s with
        | none => rfl
        | some t =>
            dsimp only [Option.some_bind]
            by_cases hlt : t < st.2
            · simp only [if_pos hlt]
            · simp only [if_neg hlt]
      have hcm : candMin cand (s :: l) st.2 = candMin cand l (candMinStep cand st.2 s) := rfl
      rcases ih (hitStep r a st s) hgood' with ⟨h1, h2⟩ | ⟨h1, x, hx, h2, h3⟩
      · rw [hstep2] at h1
        by_cases himp : candMinStep cand st.2 s = st.2
        · left
          refine ⟨by rw [hcm, h1, himp], ?_⟩
          show (hitFold r a l (hitStep r a st s)).1 = st.1
          rw [h2]
          unfold hitStep
          rw [hs.2 st.2]
          cases hc : cand s with
          | none => rfl
          | some t =>
              dsimp only [Option.some_bind]
              have hnlt : ¬ t < st.2 := by
                intro hlt
                unfold candMinStep at himp
                rw [hc] at himp
                dsimp only at himp
                rw [if_pos hlt] at himp
                exact absurd himp (by linarith)
              rw [if_neg hnlt]
        · right
          have hlt : candMinStep cand st.2 s < st.2 :=
            lt_of_le_of_ne (candMinStep_le _ _ _) himp
          have hcand : cand s = some (candMinStep cand st.2 s) := by
            unfold candMinStep at himp ⊢
            cases hc : cand s with
            | none => exfalso; rw [hc] at himp; exact himp rfl
            | some t =>
                rw [hc] at himp
                dsimp only at himp ⊢
                split
                · rfl
                · exact absurd (if_neg (by assumption)) himp
          refine ⟨by rw [hcm, h1]; exact hlt, s, by simp, ?_, ?_⟩
          · show (hitFold r a l (hitStep r a st s)).1 = some s
            rw [h2]
            unfold hitStep
            rw [hs.2 st.2]
            rcases hc : cand s with _ | t
            · rw [hc] at hcand; cases hcand
            · dsimp only [Option.some_bind]
              rw [hc] at hcand
              injection hcand with hcand
              have hlt2 : t < st.2 := by rw [hcand]; exact hlt
              rw [if_pos hlt2]
          · rw [hcm, h1, hcand]
      · right
        rw [hstep2] at h1 h3
        refine ⟨by rw [hcm]; exact lt_of_lt_of_le h1 (candMinStep_le _ _ _),
          x, List.mem_cons_of_mem _ hx, h2, by rw [hcm]; exact h3⟩

theorem hitFold_append (r : Ray) (a : ℚ) (l1 l2 : List Shape) (st : Option Shape × ℚ) :
    hitFold r a (l1 ++ l2) st = hitFold r a l2 (hitFold r a l1 st) := by
  simp [hitFold, List.foldl_append]

/-- If a scan ends with no hit shape, it never updated the state at all. -/
theorem hitFold_none_fixed (r : Ray) (a : ℚ) :
    ∀ (l : List Shape) (st : Option Shape × ℚ),
      (hitFold r a l st).1 = none → hitFold r a l st = st := by
  intro l
  induction l with
  | nil => intro st _; rfl
  | cons s l ih =>
      intro st hnone
      have hstep : hitFold r a (s :: l) st = hitFold r a l (hitStep r a st s) := rfl
      rw [hstep] at hnone ⊢
      cases hh : s.hit r a st.2 with
      | some t =>
          exfalso
          have he : hitStep r a st s = (some s, t) := by
            unfold hitStep
            rw [hh]
          rw [he] at hnone
          have := ih _ hnone
          rw [this] at hnone
          simp at hnone
      | none =>
          have he : hitStep r a st s = st := by
            unfold hitStep
            rw [hh]
          rw [he] at hnone ⊢
          exact ih _ hnone

/-- A scan from two initial hit shapes over the same running range either
ends in identical hit shapes (some shape improved), or leaves both states
untouched. -/
theorem hitFold_init (r : Ray) (a : ℚ) :
    ∀ (l : List Shape) (x0 x0' : Option Shape) (b : ℚ),
      (hitFold r a l (x0, b)).2 = (hitFold r a l (x0', b)).2 ∧
      ((hitFold r a l (x0, b)).1 = (hitFold r a l (x0', b)).1 ∨
        hitFold r a l (x0, b) = (x0, b) ∧ hitFold r a l (x0', b) = (x0', b)) := by
  intro l
  induction l with
  | nil => intro x0 x0' b; exact ⟨rfl, Or.inr ⟨rfl, rfl⟩⟩
  | cons s l ih =>
      intro x0 x0' b
      have h1 : hitFold r a (s :: l) (x0, b) = hitFold r a l (hitStep r a (x0, b) s) := rfl
      have h2 : hitFold r a (s :: l) (x0', b) = hitFold r a l (hitStep r a (x0', b) s) := rfl
      rw [h1, h2]
      cases hh : s.hit r a b with
      | some t =>
          have e1 : hitStep r a (x0, b) s = (some s, t) := by
            unfold hitStep
            rw [show ((x0, b) : Option Shape × ℚ).2 = b from rfl, hh]
          have e2 : hitStep r a (x0', b) s = (some s, t) := by
            unfold hitStep
            rw [show ((x0', b) : Option Shape × ℚ).2 = b from rfl, hh]
          rw [e1, e2]
          exact ⟨rfl, Or.inl rfl⟩
      | none =>
          have e1 : hitStep r a (x0, b) s = (x0, b) := by
            unfold hitStep
            rw [show ((x0, b) : Option Shape × ℚ).2 = b from rfl, hh]
          have e2 : hitStep r a (x0', b) s = (x0', b) := by
            unfold hitStep
            rw [show ((x0', b) : Option Shape × ℚ).2 = b from rfl, hh]
          rw [e1, e2]
          exact ih x0 x0' b

/-- A successful linear scan determines the final fold state, whatever
hit shape the fold started from. -/
theorem hitFold_of_listHit_some {shapes : List Shape} {r : Ray} {a b : ℚ} {s : Shape}
    {t : ℚ} (h : listHit shapes r a b = some (s, t)) (x0 : Option Shape) :
    hitFold r a shapes (x0, b) = (some s, t) := by
  have hbase : hitFold r a shapes (none, b) = (some s, t) := by
    unfold listHit at h
    dsimp only at h
    split at h
    · rename_i x heq
      simp only [Option.some.injEq, Prod.mk.injEq] at h
      obtain ⟨rfl, rfl⟩ := h
      have hpair : hitFold r a shapes (none, b)
          = ((hitFold r a shapes (none, b)).1, (hitFold r a shapes (none, b)).2) := rfl
      rw [hpair, heq]
    · exact Option.noConfusion h
  obtain ⟨hsnd, hfst⟩ := hitFold_init r a shapes x0 none b
  rcases hfst with hfst | ⟨hfix, hfix'⟩
  · have h1 : (hitFold r a shapes (x0, b)).1 = some s := by rw [hfst, hbase]
    have h2 : (hitFold r a shapes (x0, b)).2 = t := by rw [hsnd, hbase]
    have hpair : hitFold r a shapes (x0, b)
        = ((hitFold r a shapes (x0, b)).1, (hitFold r a shapes (x0, b)).2) := rfl
    rw [hpair, h1, h2]
  · exfalso
    rw [hbase] at hfix'
    exact Option.noConfusion (congrArg Prod.fst hfix')

/-- A failed linear scan leaves any starting state untouched. -/
theorem hitFold_of_listHit_none {shapes : List Shape} {r : Ray} {a b : ℚ}
    (h : listHit shapes r a b = none) (x0 : Option Shape) :
    hitFold r a shapes (x0, b) = (x0, b) := by
  have hf : (hitFold r a shapes (none, b)).1 = none := by
    rcases hf : (hitFold r a shapes (none, b)).1 with _ | x
    · rfl
    · exfalso
      unfold listHit at h
      dsimp only at h
      rw [hf] at h
      exact Option.noConfusion h
  obtain ⟨hsnd, hfst⟩ := hitFold_init r a shapes x0 none b
  rcases hfst with hfst | ⟨hfix, _⟩
  · exact hitFold_none_fixed r a shapes (x0, b) (by rw [hfst]; exact hf)
  · exact hfix

/-- The shape lists of the pending subtrees, concatenated left to
right. -/
def pendShapes (pend : List (ℕ × BVHTree)) : List Shape :=
  (pend.map (fun p => p.2.shapesOf)).flatten

theorem pendShapes_concat (q : List (ℕ × BVHTree)) (p : ℕ × BVHTree) :
    pendShapes (q ++ [p]) = pendShapes q ++ p.2.shapesOf := by
  simp [pendShapes]

theorem pendShapes_concat2 (q : List (ℕ × BVHTree)) (p1 p2 : ℕ × BVHTree) :
    pendShapes (q ++ [p1, p2]) = pendShapes q ++ (p1.2.shapesOf ++ p2.2.shapesOf) := by
  simp [pendShapes]

/-- If a subtree's root box fails the slab test, every shape stored in it
misses in that range (by prune soundness and the containment invariant). -/
theorem subtree_miss {r : Ray} {a : ℚ} {T : BVHTree} (hwf : T.WF)
    (hgood : ∀ s ∈ T.shapesOf, PruneSound r a s) {b : ℚ}
    (hbox : T.rootBox.intersect r a b = false) :
    ∀ s ∈ T.shapesOf, s.hit r a b = none := by
  intro s hs
  by_contra hne
  have := hgood s hs T.rootBox (WF_contains_shapes T hwf s hs) b hne
  rw [hbox] at this
  cases this

/-- The traversal loop processes some sublist of the pending shapes with
the linear scan fold and discards the rest, each discarded shape missing
at the final range bound.  The split is a permutation of all pending
shapes. -/
theorem bvhHitLoop_result (bvh : List BVHTypes) (r : Ray) (a : ℚ)
    (cand : Shape → Option ℚ) :
    ∀ (fuel : ℕ) (pend : List (ℕ × BVHTree)) (st : BVHLoopState),
      LoopInv bvh pend st → sizeSum pend ≤ fuel →
      (∀ s ∈ pendShapes pend, FilterShape cand r a s ∧ PruneSound r a s) →
      ∃ proc disc : List Shape,
        (proc ++ disc).Perm (pendShapes pend)
        ∧ ((bvhHitLoop bvh r a fuel st).hit_shape,
            (bvhHitLoop bvh r a fuel st).modified_t_max)
          = hitFold r a proc (st.hit_shape, st.modified_t_max)
        ∧ ∀ d ∈ disc, d.hit r a (bvhHitLoop bvh r a fuel st).modified_t_max = none := by
  intro fuel
  induction fuel with
  | zero =>
      intro pend st hInv hfuel hgood
      have hpend : pend = [] := by
        cases pend with
        | nil => rfl
        | cons p rest =>
            exfalso
            have := size_pos p.2
            simp [sizeSum] at hfuel
            omega
      subst hpend
      exact ⟨[], [], by simp [pendShapes], rfl, fun d hd => absurd hd (List.not_mem_nil d)⟩
  | succ fuel ih =>
      intro pend st hInv hfuel hgood
      simp only [bvhHitLoop]
      by_cases hc : st.to_explore_count = 0
      · rw [if_pos hc]
        have hpend : pend = [] := by
          have : pend.length = 0 := by rw [← hInv.count_eq]; exact hc
          exact List.length_eq_zero.mp this
        subst hpend
        exact ⟨[], [], by simp [pendShapes], rfl, fun d hd => absurd hd (List.not_mem_nil d)⟩
      · rw [if_neg hc]
        obtain ⟨q, p, rfl⟩ : ∃ q p, pend = q ++ [p] := by
          rcases List.eq_nil_or_concat pend with rfl | ⟨q, p, hqp⟩
          · exfalso
            rw [hInv.count_eq] at hc
            exact hc rfl
          · exact ⟨q, p, by simpa [List.concat_eq_append] using hqp⟩
        have hcnt : st.to_explore_count = q.length + 1 := by
          rw [hInv.count_eq]
          simp
        have hget : st.to_explore.get? q.length = some p.1 :=
          hInv.ws_at q.length p (by rw [List.get?_concat_length])
        have hcur : st.to_explore.getD (st.to_explore_count - 1) 0 = p.1 := by
          rw [hcnt]
          simpa using getD_of_get? hget 0
        have hfq : sizeSum q ≤ fuel := by
          rw [sizeSum_concat] at hfuel
          have := size_pos p.2
          omega
        obtain ⟨i, T⟩ := p
        have hgq : ∀ s ∈ pendShapes q, FilterShape cand r a s ∧ PruneSound r a s := by
          intro s hs
          refine hgood s ?_
          rw [pendShapes_concat]
          exact List.mem_append_left _ hs
        have hgT : ∀ s ∈ T.shapesOf, FilterShape cand r a s ∧ PruneSound r a s := by
          intro s hs
          refine hgood s ?_
          rw [pendShapes_concat]
          exact List.mem_append_right _ hs
        have hwfT : T.WF := hInv.wf (i, T) (by simp)
        have hps : pendShapes (q ++ [(i, T)]) = pendShapes q ++ T.shapesOf := by
          rw [pendShapes_concat]
        dsimp only
        rw [hcur]
        cases T with
        | leaf bx shapes =>
            have hgetb : bvh.getD i default = BVHTypes.Leaf bx shapes :=
              getD_of_get? (subtreeAt_leaf_get (hInv.sub (i, BVHTree.leaf bx shapes)
                (by simp))) _
            rw [hgetb]
            dsimp only
            have hpop := inv_pop (p := (i, BVHTree.leaf bx shapes)) hInv
            by_cases hbox : bx.intersect r a st.modified_t_max
            · rw [if_neg (by simpa using hbox)]
              rcases hlh : listHit shapes r a st.modified_t_max with _ | ⟨s, t⟩
              · obtain ⟨proc, disc, hperm, hfold, hmiss⟩ := ih q _ hpop hfq hgq
                refine ⟨shapes ++ proc, disc, ?_, ?_, hmiss⟩
                · rw [hps, List.append_assoc]
                  exact ((hperm.append_left shapes).trans List.perm_append_comm)
                · rw [hitFold_append, hitFold_of_listHit_none hlh st.hit_shape]
                  exact hfold
              · obtain ⟨proc, disc, hperm, hfold, hmiss⟩ :=
                  ih q _ (inv_set_result hpop t (some s)) hfq hgq
                refine ⟨shapes ++ proc, disc, ?_, ?_, hmiss⟩
                · rw [hps, List.append_assoc]
                  exact ((hperm.append_left shapes).trans List.perm_append_comm)
                · rw [hitFold_append, hitFold_of_listHit_some hlh st.hit_shape]
                  exact hfold
            · rw [if_pos (by simpa using hbox)]
              obtain ⟨proc, disc, hperm, hfold, hmiss⟩ := ih q _ hpop hfq hgq
              have hprocgood : ∀ s ∈ proc, FilterShape cand r a s := by
                intro s hs
                exact (hgq s (hperm.mem_iff.mp (List.mem_append_left _ hs))).1
              refine ⟨proc, disc ++ shapes, ?_, hfold, ?_⟩
              · rw [hps, ← List.append_assoc]
                exact hperm.append_right shapes
              · intro d hd
                rcases List.mem_append.mp hd with hd | hd
                · exact hmiss d hd
                · have hboxf : bx.intersect r a st.modified_t_max = false := by
                    simpa using hbox
                  have hmiss0 : d.hit r a st.modified_t_max = none :=
                    subtree_miss hwfT (fun s hs => (hgT s hs).2) hboxf d hd
                  refine (hgT d hd).1.mono_none hmiss0 ?_
                  have h2 := congrArg Prod.snd hfold
                  dsimp only at h2
                  rw [hitFold_snd cand r a proc _ hprocgood] at h2
                  rw [h2]
                  exact candMin_le cand proc _
        | node bx ax l rt =>
            have hgetb : bvh.getD i default = BVHTypes.Node bx ax (l.flat.length + 1) :=
              getD_of_get? (subtreeAt_node_get (hInv.sub (i, BVHTree.node bx ax l rt)
                (by simp))) _
            rw [hgetb]
            dsimp only
            have hfq2 : sizeSum q + l.size + rt.size ≤ fuel := by
              rw [sizeSum_concat, size_node] at hfuel
              omega
            by_cases hbox : bx.intersect r a st.modified_t_max
            · rw [if_neg (by simpa using hbox)]
              have hshn : (BVHTree.node bx ax l rt).shapesOf = l.shapesOf ++ rt.shapesOf :=
                rfl
              by_cases hdir : r.dir.index ax < 0
              · rw [if_pos hdir]
                obtain ⟨proc, disc, hperm, hfold, hmiss⟩ :=
                  ih (q ++ [(i + (l.flat.length + 1), rt), (i + 1, l)]) _
                    (inv_pop_push hInv _ _ (Or.inr ⟨rfl, rfl⟩))
                    (by rw [sizeSum_concat2]
                        simp only [BVHTree.size] at *
                        omega)
                    (by intro s hs
                        rw [pendShapes_concat2] at hs
                        rcases List.mem_append.mp hs with hs | hs
                        · exact hgq s hs
                        · refine hgT s ?_
                          rw [hshn]
                          rcases List.mem_append.mp hs with hs | hs
                          · exact List.mem_append_right _ hs
                          · exact List.mem_append_left _ hs)
                refine ⟨proc, disc, ?_, hfold, hmiss⟩
                refine hperm.trans ?_
                rw [pendShapes_concat2, hps, hshn]
                exact List.Perm.append_left _ List.perm_append_comm
              · rw [if_neg hdir]
                obtain ⟨proc, disc, hperm, hfold, hmiss⟩ :=
                  ih (q ++ [(i + 1, l), (i + (l.flat.length + 1), rt)]) _
                    (inv_pop_push hInv _ _ (Or.inl ⟨rfl, rfl⟩))
                    (by rw [sizeSum_concat2]
                        simp only [BVHTree.size] at *
                        omega)
                    (by intro s hs
                        rw [pendShapes_concat2] at hs
                        rcases List.mem_append.mp hs with hs | hs
                        · exact hgq s hs
                        · refine hgT s ?_
                          rw [hshn]
                          exact hs)
                refine ⟨proc, disc, ?_, hfold, hmiss⟩
                refine hperm.trans ?_
                rw [pendShapes_concat2, hps, hshn]
            · rw [if_pos (by simpa using hbox)]
              obtain ⟨proc, disc, hperm, hfold, hmiss⟩ :=
                ih q _ (inv_pop (p := (i, BVHTree.node bx ax l rt)) hInv) hfq hgq
              have hprocgood : ∀ s ∈ proc, FilterShape cand r a s := by
                intro s hs
                exact (hgq s (hperm.mem_iff.mp (List.mem_append_left _ hs))).1
              refine ⟨proc, disc ++ (BVHTree.node bx ax l rt).shapesOf, ?_, hfold, ?_⟩
              · rw [hps, ← List.append_assoc]
                exact hperm.append_right _
              · intro d hd
                rcases List.mem_append.mp hd with hd | hd
                · exact hmiss d hd
                · have hboxf : bx.intersect r a st.modified_t_max = false := by
                    simpa using hbox
                  have hmiss0 : d.hit r a st.modified_t_max = none :=
                    subtree_miss hwfT (fun s hs => (hgT s hs).2) hboxf d hd
                  refine (hgT d hd).1.mono_none hmiss0 ?_
                  have h2 := congrArg Prod.snd hfold
                  dsimp only at h2
                  rw [hitFold_snd cand r a proc _ hprocgood] at h2
                  rw [h2]
                  exact candMin_le cand proc _

/-- C1 (amended): for every scene whose shapes obey the repository's
primitive contract — each shape reports a fixed candidate parameter
filtered by the open query range (`FilterShape`), and a shape that hits
inside the range passes the slab test of any box containing its bounding
box (`PruneSound`) — `<BVH as Aggregate>::hit` on the `new_bvh` tree with
the `get_workspace` workspace returns a hit for exactly the same queries
as the linear `List::hit` scan and with the same hit parameter `t`; the
returned shape is also the same whenever the closest candidate is
attained by a unique shape (on ties the two aggregates may return
different co-located shapes, as the recorded counterexample shows). -/
theorem bvh_hit_matches_list_hit (shapes : List Shape) (r : Ray) (t_min t_max : ℚ)
    (cand : Shape → Option ℚ)
    (hgood : ∀ s ∈ shapes, FilterShape cand r t_min s ∧ PruneSound r t_min s) :
    ((bvhHit (new_bvh shapes) r t_min t_max (get_workspace (new_bvh shapes))).map Prod.snd
      = (listHit shapes r t_min t_max).map Prod.snd)
    ∧ ((∀ s1 ∈ shapes, ∀ s2 ∈ shapes, ∀ t : ℚ,
          cand s1 = some t → cand s2 = some t → s1 = s2) →
      bvhHit (new_bvh shapes) r t_min t_max (get_workspace (new_bvh shapes))
        = listHit shapes r t_min t_max) := by
  obtain ⟨T, hT, hwf, hperm, _⟩ := new_bvh_structural_invariant shapes
  have hlen : (new_bvh shapes).length = T.size := by rw [hT]; rfl
  have hInv := init_LoopInv shapes t_max T hT hwf
  have hgood1 : ∀ s ∈ pendShapes [(0, T)],
      FilterShape cand r t_min s ∧ PruneSound r t_min s := by
    intro s hs
    refine hgood s ?_
    have hs' : s ∈ T.shapesOf := by simpa [pendShapes] using hs
    exact hperm.mem_iff.mp hs'
  obtain ⟨proc, disc, hperm2, hfold, hmiss⟩ :=
    bvhHitLoop_result (new_bvh shapes) r t_min cand ((new_bvh shapes).length + 1)
      [(0, T)] _ hInv (by simp [sizeSum]; omega) hgood1
  have hfull : bvhHitFull (new_bvh shapes) r t_min t_max (get_workspace (new_bvh shapes))
      = bvhHitLoop (new_bvh shapes) r t_min ((new_bvh shapes).length + 1)
        { to_explore := (get_workspace (new_bvh shapes)).set 0 0
          to_explore_count := 1
          modified_t_max := t_max
          hit_shape := none
          visited := []
          count_high := 1
          oob := decide ((get_workspace (new_bvh shapes)).length = 0) } := rfl
  rw [← hfull] at hfold hmiss
  have hout : ((bvhHitFull (new_bvh shapes) r t_min t_max
        (get_workspace (new_bvh shapes))).hit_shape,
      (bvhHitFull (new_bvh shapes) r t_min t_max
        (get_workspace (new_bvh shapes))).modified_t_max)
      = hitFold r t_min proc (none, t_max) := hfold
  have htot : (proc ++ disc).Perm shapes := by
    refine hperm2.trans ?_
    have hx : pendShapes [(0, T)] = T.shapesOf := by simp [pendShapes]
    rw [hx]
    exact hperm
  have hprocS : ∀ s ∈ proc, s ∈ shapes :=
    fun s hs => htot.mem_iff.mp (List.mem_append_left _ hs)
  have hdiscS : ∀ s ∈ disc, s ∈ shapes :=
    fun s hs => htot.mem_iff.mp (List.mem_append_right _ hs)
  have hprocG : ∀ s ∈ proc, FilterShape cand r t_min s :=
    fun s hs => (hgood s (hprocS s hs)).1
  have hshapesG : ∀ s ∈ shapes, FilterShape cand r t_min s :=
    fun s hs => (hgood s hs).1
  have hsndP : (hitFold r t_min proc (none, t_max)).2 = candMin cand proc t_max :=
    hitFold_snd cand r t_min proc (none, t_max) hprocG
  have hsndS : (hitFold r t_min shapes (none, t_max)).2 = candMin cand shapes t_max :=
    hitFold_snd cand r t_min shapes (none, t_max) hshapesG
  have hout2 : (bvhHitFull (new_bvh shapes) r t_min t_max
      (get_workspace (new_bvh shapes))).modified_t_max = candMin cand proc t_max := by
    have h2 := congrArg Prod.snd hout
    dsimp only at h2
    rw [hsndP] at h2
    exact h2
  have hout1 : (bvhHitFull (new_bvh shapes) r t_min t_max
      (get_workspace (new_bvh shapes))).hit_shape
      = (hitFold r t_min proc (none, t_max)).1 := by
    have h1 := congrArg Prod.fst hout
    dsimp only at h1
    exact h1
  have hdisc_no : ∀ d ∈ disc, ∀ u, cand d = some u → candMin cand proc t_max ≤ u := by
    intro d hd u hu
    have hm := hmiss d hd
    rw [hout2] at hm
    have hF := (hgood d (hdiscS d hd)).1
    rw [hF.2] at hm
    rw [hu] at hm
    simp only [Option.some_bind] at hm
    by_contra hnot
    push_neg at hnot
    rw [if_pos hnot] at hm
    exact Option.noConfusion hm
  have hcand_eq : candMin cand shapes t_max = candMin cand proc t_max := by
    have h1 : candMin cand shapes t_max = candMin cand (proc ++ disc) t_max :=
      (candMin_perm cand htot t_max).symm
    rw [h1, candMin_append]
    exact candMin_no_improve cand disc _ hdisc_no
  have hne : (new_bvh shapes).isEmpty = false := by
    rw [hT]
    cases hfl : T.flat with
    | nil =>
        exfalso
        have hp := flat_length_pos T
        rw [hfl] at hp
        simp at hp
    | cons x xs => rfl
  have hbvh_eq : bvhHit (new_bvh shapes) r t_min t_max (get_workspace (new_bvh shapes))
      = match (bvhHitFull (new_bvh shapes) r t_min t_max
          (get_workspace (new_bvh shapes))).hit_shape with
        | some s => some (s, (bvhHitFull (new_bvh shapes) r t_min t_max
            (get_workspace (new_bvh shapes))).modified_t_max)
        | none => none := by
    unfold bvhHit
    rw [if_neg (by simp [hne])]
  have hlist_eq : listHit shapes r t_min t_max
      = match (hitFold r t_min shapes (none, t_max)).1 with
        | some s => some (s, (hitFold r t_min shapes (none, t_max)).2)
        | none => none := rfl
  have hPC : (candMin cand proc t_max = t_max
        ∧ (hitFold r t_min proc (none, t_max)).1 = none)
      ∨ (candMin cand proc t_max < t_max ∧ ∃ s ∈ proc,
          (hitFold r t_min proc (none, t_max)).1 = some s
          ∧ cand s = some (candMin cand proc t_max)) :=
    hitFold_fst_cases cand r t_min proc (none, t_max) hprocG
  have hSC : (candMin cand shapes t_max = t_max
        ∧ (hitFold r t_min shapes (none, t_max)).1 = none)
      ∨ (candMin cand shapes t_max < t_max ∧ ∃ s ∈ shapes,
          (hitFold r t_min shapes (none, t_max)).1 = some s
          ∧ cand s = some (candMin cand shapes t_max)) :=
    hitFold_fst_cases cand r t_min shapes (none, t_max) hshapesG
  have hmain :
      (bvhHit (new_bvh shapes) r t_min t_max (get_workspace (new_bvh shapes)) = none
        ∧ listHit shapes r t_min t_max = none)
      ∨ ∃ x s v, bvhHit (new_bvh shapes) r t_min t_max (get_workspace (new_bvh shapes))
            = some (x, v)
          ∧ listHit shapes r t_min t_max = some (s, v)
          ∧ x ∈ shapes ∧ s ∈ shapes ∧ cand x = some v ∧ cand s = some v := by
    rcases hPC with ⟨hP1, hP2⟩ | ⟨hP1, x, hxp, hP2, hP3⟩
    · rcases hSC with ⟨hS1, hS2⟩ | ⟨hS1, s, hsp, hS2, hS3⟩
      · left
        constructor
        · rw [hbvh_eq, hout1, hP2]
        · rw [hlist_eq, hS2]
      · exfalso
        rw [hcand_eq] at hS1
        exact absurd hP1 (ne_of_lt hS1)
    · rcases hSC with ⟨hS1, hS2⟩ | ⟨hS1, s, hsp, hS2, hS3⟩
      · exfalso
        rw [hcand_eq] at hS1
        exact absurd hS1 (ne_of_lt hP1)
      · right
        refine ⟨x, s, candMin cand proc t_max, ?_, ?_, hprocS x hxp, hsp, hP3, ?_⟩
        · rw [hbvh_eq, hout1, hP2, hout2]
        · rw [hlist_eq, hS2, hsndS, hcand_eq]
        · rw [← hcand_eq]
          exact hS3
  constructor
  · rcases hmain with ⟨h1, h2⟩ | ⟨x, s, v, h1, h2, _, _, _, _⟩
    · rw [h1, h2]
    · rw [h1, h2]
      rfl
  · intro huniq
    rcases hmain with ⟨h1, h2⟩ | ⟨x, s, v, h1, h2, hxS, hsS, hcx, hcs⟩
    · rw [h1, h2]
    · rw [h1, h2, huniq x hxS s hsS v hcx hcs]

theorem bvh_hit_matches_list_hit_witness :
    (bvhHit (new_bvh [tieB]) tieRay 0 10 (get_workspace (new_bvh [tieB]))).map Prod.snd
      = (listHit [tieB] tieRay 0 10).map Prod.snd :=
  (bvh_hit_matches_list_hit [tieB] tieRay 0 10 (fun _ => none) (by
    intro s hs
    simp only [List.mem_singleton] at hs
    subst hs
    refine ⟨⟨?_, ?_⟩, ?_⟩
    · intro t ht
      exact Option.noConfusion ht
    · intro b
      rfl
    · intro box hbox b hne
      exact absurd rfl hne)).1
